import Mathlib

/-!
# Verification of the ta-rs streaming indicators

This file gives a shallow embedding of the three indicator implementations of
the repository (`src/indicators/minimum.rs`, `src/indicators/fast_stochastic.rs`,
`src/indicators/rate_of_change.rs`) and proves properties about them.

Modelling decisions:

* IEEE-754 `f64` values are modelled as extended rationals
  `EF := WithBot (WithTop ℚ)`: finite doubles become rationals, the
  `INFINITY` sentinel becomes `⊤` and `NEG_INFINITY` becomes `⊥`.
  Comparison of non-NaN doubles is exactly the linear order on `EF`.
  Inputs fed to the indicators are finite (`ℚ`), matching the
  "non-NaN float inputs" domain of the specification; float arithmetic is
  modelled as exact rational arithmetic.
* Mutable Rust structs become immutable structures; each `&mut self` method
  becomes a function returning the new state (paired with the returned value).
* `Result<Self>` with `ErrorKind::InvalidParameter` becomes
  `Except ErrorKind _`.
* The `Maximum` indicator is used by `FastStochastic` but its source file is
  not part of the provided sources; it is modelled from the spec (see its
  doc comment below).
-/

set_option maxHeartbeats 1000000

namespace TaRs

/-- Extended rationals: the value domain of non-NaN `f64`. -/
abbrev EF := WithBot (WithTop ℚ)

/-- A finite double, as an extended rational. -/
def EF.fin (q : ℚ) : EF := ((q : WithTop ℚ) : WithBot (WithTop ℚ))

/-- Extract the rational from a finite extended rational (junk value `0` on
`⊤`/`⊥`; all uses in this development are on values proven finite). -/
def EF.toRat (e : EF) : ℚ := (e.unbot' ((0 : ℚ) : WithTop ℚ)).untop' 0

@[simp] theorem EF.toRat_fin (q : ℚ) : (EF.fin q).toRat = q := rfl

@[simp] theorem EF.fin_lt_fin {a b : ℚ} : EF.fin a < EF.fin b ↔ a < b := by
  simp [EF.fin]

@[simp] theorem EF.fin_le_fin {a b : ℚ} : EF.fin a ≤ EF.fin b ↔ a ≤ b := by
  simp [EF.fin]

@[simp] theorem EF.fin_lt_top (a : ℚ) : EF.fin a < (⊤ : EF) := by
  show ((a : WithTop ℚ) : WithBot (WithTop ℚ)) < ((⊤ : WithTop ℚ) : WithBot (WithTop ℚ))
  exact WithBot.coe_lt_coe.2 (WithTop.coe_lt_top a)

@[simp] theorem EF.bot_lt_fin (a : ℚ) : (⊥ : EF) < EF.fin a := by
  simp [EF.fin]

@[simp] theorem EF.fin_inj {a b : ℚ} : EF.fin a = EF.fin b ↔ a = b := by
  simp [EF.fin]

@[simp] theorem EF.fin_ne_top (a : ℚ) : EF.fin a ≠ (⊤ : EF) :=
  ne_of_lt (EF.fin_lt_top a)

@[simp] theorem EF.fin_ne_bot (a : ℚ) : EF.fin a ≠ (⊥ : EF) :=
  ne_of_gt (EF.bot_lt_fin a)

/-- The last `n` elements of a list (all of it when it is shorter than `n`):
the contents of an `n`-slot window after the list has been streamed in. -/
def lastN (n : Nat) (l : List α) : List α := l.drop (l.length - n)

@[simp] theorem lastN_nil (n : Nat) : lastN n ([] : List α) = [] := by
  simp [lastN]

theorem lastN_of_le {n : Nat} {l : List α} (h : l.length ≤ n) : lastN n l = l := by
  simp [lastN, Nat.sub_eq_zero_of_le h]

@[simp] theorem lastN_length (n : Nat) (l : List α) :
    (lastN n l).length = min n l.length := by
  simp [lastN]
  omega

theorem lastN_append_singleton_of_lt {n : Nat} {l : List α} (h : l.length < n) (x : α) :
    lastN n (l ++ [x]) = l ++ [x] :=
  lastN_of_le (by simp only [List.length_append, List.length_singleton]; omega)

theorem lastN_append_singleton_of_ge {n : Nat} {l : List α} (hn : 1 ≤ n) (h : n ≤ l.length) (x : α) :
    lastN n (l ++ [x]) = (lastN n l).tail ++ [x] := by
  unfold lastN
  rw [List.tail_drop]
  have h1 : (l ++ [x]).length - n = (l.length - n) + 1 := by simp; omega
  rw [h1, List.drop_append_of_le_length (by omega)]

theorem self_mem_lastN {n : Nat} (hn : 1 ≤ n) (l : List α) (x : α) :
    x ∈ lastN n (l ++ [x]) := by
  unfold lastN
  rw [List.drop_append_of_le_length (by simp; omega)]
  simp

theorem mem_of_mem_lastN {n : Nat} {l : List α} {x : α} (h : x ∈ lastN n l) : x ∈ l :=
  List.mem_of_mem_drop h

/-- Minimum of a list of extended rationals (`⊤` for the empty list). -/
def listMinEF (l : List EF) : EF := l.foldr min ⊤

/-- Maximum of a list of extended rationals (`⊥` for the empty list). -/
def listMaxEF (l : List EF) : EF := l.foldr max ⊥

@[simp] theorem listMinEF_nil : listMinEF [] = ⊤ := rfl

@[simp] theorem listMaxEF_nil : listMaxEF [] = ⊥ := rfl

@[simp] theorem listMinEF_cons (a : EF) (l : List EF) :
    listMinEF (a :: l) = min a (listMinEF l) := rfl

@[simp] theorem listMaxEF_cons (a : EF) (l : List EF) :
    listMaxEF (a :: l) = max a (listMaxEF l) := rfl

theorem listMinEF_le_of_mem {a : EF} {l : List EF} (h : a ∈ l) : listMinEF l ≤ a := by
  induction l with
  | nil => cases h
  | cons b t ih =>
    rcases List.mem_cons.1 h with rfl | h
    · exact min_le_left _ _
    · exact le_trans (min_le_right _ _) (ih h)

theorem le_listMaxEF_of_mem {a : EF} {l : List EF} (h : a ∈ l) : a ≤ listMaxEF l := by
  induction l with
  | nil => cases h
  | cons b t ih =>
    rcases List.mem_cons.1 h with rfl | h
    · exact le_max_left _ _
    · exact le_trans (ih h) (le_max_right _ _)

theorem le_listMinEF {b : EF} {l : List EF} (h : ∀ a ∈ l, b ≤ a) : b ≤ listMinEF l := by
  induction l with
  | nil => exact le_top
  | cons a t ih =>
    exact le_min (h a (List.mem_cons_self a t)) (ih fun x hx => h x (List.mem_cons_of_mem a hx))

theorem listMaxEF_le {b : EF} {l : List EF} (h : ∀ a ∈ l, a ≤ b) : listMaxEF l ≤ b := by
  induction l with
  | nil => exact bot_le
  | cons a t ih =>
    exact max_le (h a (List.mem_cons_self a t)) (ih fun x hx => h x (List.mem_cons_of_mem a hx))

theorem listMinEF_eq_of {a : EF} {l : List EF} (hmem : a ∈ l) (hle : ∀ e ∈ l, a ≤ e) :
    listMinEF l = a :=
  le_antisymm (listMinEF_le_of_mem hmem) (le_listMinEF hle)

theorem listMaxEF_eq_of {a : EF} {l : List EF} (hmem : a ∈ l) (hle : ∀ e ∈ l, e ≤ a) :
    listMaxEF l = a :=
  le_antisymm (listMaxEF_le hle) (le_listMaxEF_of_mem hmem)

theorem foldr_min_eq (l : List EF) (e : EF) : l.foldr min e = min (listMinEF l) e := by
  induction l with
  | nil => simp [listMinEF]
  | cons a t ih => simp [listMinEF, List.foldr_cons, ih, min_assoc]

theorem foldr_max_eq (l : List EF) (e : EF) : l.foldr max e = max (listMaxEF l) e := by
  induction l with
  | nil => simp [listMaxEF]
  | cons a t ih => simp [listMaxEF, List.foldr_cons, ih, max_assoc]

theorem listMinEF_append (a b : List EF) :
    listMinEF (a ++ b) = min (listMinEF a) (listMinEF b) := by
  unfold listMinEF
  rw [List.foldr_append, foldr_min_eq a (b.foldr min ⊤)]
  rfl

theorem listMaxEF_append (a b : List EF) :
    listMaxEF (a ++ b) = max (listMaxEF a) (listMaxEF b) := by
  unfold listMaxEF
  rw [List.foldr_append, foldr_max_eq a (b.foldr max ⊥)]
  rfl

theorem listMinEF_rotate (l : List EF) (m : Nat) : listMinEF (l.rotate m) = listMinEF l := by
  rcases List.eq_nil_or_concat l with rfl | _
  · simp [List.rotate_nil]
  · have hpos : 0 < l.length := by
      rcases l with - | ⟨a, t⟩
      · simp_all
      · simp
    rw [← List.rotate_mod, List.rotate_eq_drop_append_take (le_of_lt (Nat.mod_lt _ hpos)),
      listMinEF_append, min_comm, ← listMinEF_append, List.take_append_drop]

theorem listMaxEF_rotate (l : List EF) (m : Nat) : listMaxEF (l.rotate m) = listMaxEF l := by
  rcases List.eq_nil_or_concat l with rfl | _
  · simp [List.rotate_nil]
  · have hpos : 0 < l.length := by
      rcases l with - | ⟨a, t⟩
      · simp_all
      · simp
    rw [← List.rotate_mod, List.rotate_eq_drop_append_take (le_of_lt (Nat.mod_lt _ hpos)),
      listMaxEF_append, max_comm, ← listMaxEF_append, List.take_append_drop]

theorem listMinEF_replicate_top (n : Nat) : listMinEF (List.replicate n ⊤) = ⊤ := by
  induction n with
  | zero => rfl
  | succ k ih => simp [List.replicate_succ, ih]

theorem listMaxEF_replicate_bot (n : Nat) : listMaxEF (List.replicate n ⊥) = ⊥ := by
  induction n with
  | zero => rfl
  | succ k ih => simp [List.replicate_succ, ih]

theorem listMinEF_replicate_top_append (m : Nat) (l : List EF) :
    listMinEF (List.replicate m ⊤ ++ l) = listMinEF l := by
  rw [listMinEF_append, listMinEF_replicate_top, min_eq_right le_top]

theorem listMaxEF_replicate_bot_append (m : Nat) (l : List EF) :
    listMaxEF (List.replicate m ⊥ ++ l) = listMaxEF l := by
  rw [listMaxEF_append, listMaxEF_replicate_bot, max_eq_right bot_le]

theorem eq_top_of_listMinEF_eq_top {l : List EF} (h : listMinEF l = ⊤) :
    ∀ a ∈ l, a = (⊤ : EF) := by
  intro a ha
  exact top_le_iff.1 (h ▸ listMinEF_le_of_mem ha)

theorem eq_bot_of_listMaxEF_eq_bot {l : List EF} (h : listMaxEF l = ⊥) :
    ∀ a ∈ l, a = (⊥ : EF) := by
  intro a ha
  exact le_bot_iff.1 (h ▸ le_listMaxEF_of_mem ha)

/-- The minimum of a nonempty list of finite values is finite and is the least
member of the list. -/
theorem listMinEF_map_fin {l : List ℚ} (h : l ≠ []) :
    ∃ m : ℚ, listMinEF (l.map EF.fin) = EF.fin m ∧ m ∈ l ∧ ∀ y ∈ l, m ≤ y := by
  induction l with
  | nil => exact absurd rfl h
  | cons a t ih =>
    rcases List.eq_nil_or_concat t with rfl | _
    · exact ⟨a, by simp [listMinEF], by simp, by simp⟩
    · have ht : t ≠ [] := by
        rcases t with - | _
        · simp_all
        · simp
      obtain ⟨m, hm, hmem, hle⟩ := ih ht
      rcases le_total a m with ham | hma
      · refine ⟨a, ?_, by simp, ?_⟩
        · simp [hm, min_eq_left (EF.fin_le_fin.2 ham)]
        · intro y hy
          rcases List.mem_cons.1 hy with rfl | hy
          · exact le_refl _
          · exact le_trans ham (hle y hy)
      · refine ⟨m, ?_, List.mem_cons_of_mem a hmem, ?_⟩
        · simp [hm, min_eq_right (EF.fin_le_fin.2 hma)]
        · intro y hy
          rcases List.mem_cons.1 hy with rfl | hy
          · exact hma
          · exact hle y hy

/-- The maximum of a nonempty list of finite values is finite and is the
greatest member of the list. -/
theorem listMaxEF_map_fin {l : List ℚ} (h : l ≠ []) :
    ∃ m : ℚ, listMaxEF (l.map EF.fin) = EF.fin m ∧ m ∈ l ∧ ∀ y ∈ l, y ≤ m := by
  induction l with
  | nil => exact absurd rfl h
  | cons a t ih =>
    rcases List.eq_nil_or_concat t with rfl | _
    · exact ⟨a, by simp [listMaxEF], by simp, by simp⟩
    · have ht : t ≠ [] := by
        rcases t with - | _
        · simp_all
        · simp
      obtain ⟨m, hm, hmem, hle⟩ := ih ht
      rcases le_total m a with hma | ham
      · refine ⟨a, ?_, by simp, ?_⟩
        · simp [hm, max_eq_left (EF.fin_le_fin.2 hma)]
        · intro y hy
          rcases List.mem_cons.1 hy with rfl | hy
          · exact le_refl _
          · exact le_trans (hle y hy) hma
      · refine ⟨m, ?_, List.mem_cons_of_mem a hmem, ?_⟩
        · simp [hm, max_eq_right (EF.fin_le_fin.2 ham)]
        · intro y hy
          rcases List.mem_cons.1 hy with rfl | hy
          · exact ham
          · exact hle y hy

/-- The single error kind of the library (`errors.rs` is not among the
provided sources; only `InvalidParameter` is used by the three indicators). -/
inductive ErrorKind where
  | InvalidParameter : ErrorKind
deriving DecidableEq

/-- `Minimum` from `src/indicators/minimum.rs`: a fixed-size circular buffer
`vec` of `n` slots with a cached index `min_index` of the current minimum and
the cursor `cur_index` of the most recently written slot. -/
structure Minimum where
  n : Nat
  vec : List EF
  min_index : Nat
  cur_index : Nat

/-- The state built by `Minimum::new` for a positive length. -/
def Minimum.mkfresh (n : Nat) : Minimum :=
  { n := n, vec := List.replicate n ⊤, min_index := 0, cur_index := 0 }

/-- `Minimum::new`: rejects `n = 0`, otherwise allocates `n` slots holding the
`INFINITY` sentinel. -/
def Minimum.new (n : Nat) : Except ErrorKind Minimum :=
  if n = 0 then .error .InvalidParameter else .ok (Minimum.mkfresh n)

/-- The loop body of `Minimum::find_min_index`: scans the remaining slots,
carrying the running minimum `m` and its index `idx`. -/
def findMinAux : List EF → Nat → EF → Nat → EF × Nat
  | [], _, m, idx => (m, idx)
  | v :: rest, i, m, idx =>
    if v < m then findMinAux rest (i + 1) v i else findMinAux rest (i + 1) m idx

/-- `Minimum::find_min_index`: full linear scan of the buffer, starting from
`min = INFINITY`, `index = 0`, updating on strict decrease. -/
def Minimum.find_min_index (vec : List EF) : Nat := (findMinAux vec 0 ⊤ 0).2

/-- `Minimum::calc` (the `Calculate` impl): advance the cursor circularly,
overwrite that slot, update the cached minimum index, and return the slot it
points at.  Named `calc'` because `calc` is a Lean keyword. -/
def Minimum.calc' (s : Minimum) (input : ℚ) : Minimum × EF :=
  let cur := (s.cur_index + 1) % s.n
  let v := s.vec.set cur (EF.fin input)
  let mi :=
    if EF.fin input < v.getD s.min_index ⊤ then cur
    else if s.min_index = cur then Minimum.find_min_index v
    else s.min_index
  (⟨s.n, v, mi, cur⟩, v.getD mi ⊤)

/-- `Minimum::reset` (the `Reset` impl): writes the `INFINITY` sentinel into
every slot.  It does NOT touch `min_index` or `cur_index`. -/
def Minimum.reset (s : Minimum) : Minimum :=
  { s with vec := List.replicate s.n ⊤ }

/-- Drive a `Minimum` over a list of inputs, collecting the returned values. -/
def Minimum.run (s : Minimum) : List ℚ → Minimum × List EF
  | [] => (s, [])
  | x :: xs =>
    let p := s.calc' x
    let q := p.1.run xs
    (q.1, p.2 :: q.2)

@[simp] theorem Minimum.min_run_nil (s : Minimum) : s.run [] = (s, []) := rfl

theorem Minimum.min_run_cons (s : Minimum) (x : ℚ) (xs : List ℚ) :
    s.run (x :: xs) = (((s.calc' x).1.run xs).1, (s.calc' x).2 :: ((s.calc' x).1.run xs).2) :=
  rfl

@[simp] theorem Minimum.min_run_length (s : Minimum) (xs : List ℚ) :
    (s.run xs).2.length = xs.length := by
  induction xs generalizing s with
  | nil => rfl
  | cons x t ih => simp [Minimum.min_run_cons, ih]

-- Sanity check: the `test_next` unit test of `minimum.rs` (length 3), with all
-- inputs scaled by 10 so that every value is an integer (1.2 becomes 12).
example :
    ((Minimum.mkfresh 3).run [40, 12, 50, 30, 40, 60, 70, 80, -90, 0]).2 =
      [EF.fin 40, EF.fin 12, EF.fin 12, EF.fin 12, EF.fin 30, EF.fin 30,
       EF.fin 40, EF.fin 60, EF.fin (-90), EF.fin (-90)] := by decide

-- Sanity check: the doc example of `minimum.rs` (length 3).
example :
    ((Minimum.mkfresh 3).run [10, 11, 12, 13]).2 =
      [EF.fin 10, EF.fin 10, EF.fin 10, EF.fin 11] := by decide

/-- Writing `x` at position `c` and rotating to start just past `c` is the
same as dropping the oldest element of the previous rotation and appending
`x`: the circular-buffer step, in list form. -/
theorem rotate_set_succ {α : Type} (l : List α) (c : Nat) (x : α) (hc : c < l.length) :
    (l.set c x).rotate (c + 1) = (l.rotate c).tail ++ [x] := by
  have hset : l.set c x = (l.take c ++ [x]) ++ l.drop (c + 1) := by
    rw [List.set_eq_take_append_cons_drop, if_pos hc, List.append_assoc]
    rfl
  have hlenA : (l.take c ++ [x]).length = c + 1 := by
    simp [List.length_take, Nat.min_eq_left (le_of_lt hc)]
  have hlen : (l.set c x).length = l.length := List.length_set l c x
  rw [List.rotate_eq_drop_append_take (by omega : c + 1 ≤ (l.set c x).length),
    List.rotate_eq_drop_append_take (le_of_lt hc), hset,
    List.drop_left' hlenA, List.take_left' hlenA]
  have hdc : l.drop c ≠ [] := by
    rw [ne_eq, List.drop_eq_nil_iff]
    omega
  obtain ⟨y, ys, hy⟩ := List.exists_cons_of_ne_nil hdc
  have htl : (l.drop c ++ l.take c).tail = l.drop (c + 1) ++ l.take c := by
    have hys : l.drop (c + 1) = ys := by
      rw [← List.tail_drop, hy]
      rfl
    rw [hy, List.cons_append, List.tail_cons, hys]
  rw [htl, List.append_assoc]

/-- The reachability invariant of `Minimum`: the state after the input
sequence `xs` has gone through a tracker of window length `n`.  Reading the
buffer circularly from the slot after the cursor gives the sentinels followed
by the last `n` inputs, and the cached index points at a slot holding the
minimum of the whole buffer. -/
structure MinReach (n : Nat) (xs : List ℚ) (s : Minimum) : Prop where
  hn : s.n = n
  hlen : s.vec.length = n
  hcur : s.cur_index < n
  hmi : s.min_index < n
  hrot : s.vec.rotate (s.cur_index + 1) =
    List.replicate (n - xs.length) ⊤ ++ (lastN n xs).map EF.fin
  hmin : s.vec.getD s.min_index ⊤ = listMinEF s.vec

theorem minReach_init (n : Nat) (hn : 1 ≤ n) : MinReach n [] (Minimum.mkfresh n) where
  hn := rfl
  hlen := by simp [Minimum.mkfresh]
  hcur := hn
  hmi := hn
  hrot := by simp [Minimum.mkfresh, List.rotate_replicate]
  hmin := by
    have h0 : 0 < (List.replicate n (⊤ : EF)).length := by simpa using hn
    simp [Minimum.mkfresh, listMinEF_replicate_top, List.getD_eq_getElem _ _ h0]

theorem findMinAux_fst (l : List EF) : ∀ (i : Nat) (m : EF) (idx : Nat),
    (findMinAux l i m idx).1 = min (listMinEF l) m := by
  induction l with
  | nil => intro i m idx; simp [findMinAux]
  | cons v rest ih =>
    intro i m idx
    by_cases h : v < m
    · rw [findMinAux, if_pos h, ih, listMinEF_cons]
      rw [min_eq_left (le_trans (min_le_left _ _) (le_of_lt h) :
        min v (listMinEF rest) ≤ m), min_comm]
    · rw [findMinAux, if_neg h, ih, listMinEF_cons, min_assoc,
        min_eq_right (le_trans (min_le_right _ _) (not_lt.1 h) : min (listMinEF rest) m ≤ v)]

theorem findMinAux_snd (vec : List EF) : ∀ (l : List EF) (i : Nat) (m : EF) (idx : Nat),
    l = vec.drop i →
    ((idx < vec.length ∧ vec.getD idx ⊤ = m) ∨ (m = ⊤ ∧ idx = 0)) →
    ((findMinAux l i m idx).2 < vec.length ∧
      vec.getD (findMinAux l i m idx).2 ⊤ = (findMinAux l i m idx).1) ∨
    ((findMinAux l i m idx).1 = ⊤ ∧ (findMinAux l i m idx).2 = 0) := by
  intro l
  induction l with
  | nil =>
    intro i m idx _ hinv
    rcases hinv with ⟨h1, h2⟩ | ⟨h1, h2⟩
    · exact Or.inl ⟨h1, h2⟩
    · exact Or.inr ⟨h1, h2⟩
  | cons v rest ih =>
    intro i m idx hdrop hinv
    have hi : i < vec.length := by
      by_contra hge
      rw [List.drop_eq_nil_of_le (not_lt.1 hge)] at hdrop
      exact List.cons_ne_nil v rest hdrop
    have hv : vec.getD i ⊤ = v := by
      rw [List.getD_eq_getElem vec ⊤ hi]
      have h0 : (vec.drop i).getD 0 ⊤ = v := by
        rw [← hdrop]
        rfl
      rw [List.getD_eq_getElem _ _ (show 0 < (vec.drop i).length by rw [← hdrop]; simp),
        List.getElem_drop] at h0
      simpa using h0
    have hrest : rest = vec.drop (i + 1) := by
      have : (v :: rest).tail = (vec.drop i).tail := by rw [hdrop]
      simpa [List.tail_drop] using this
    by_cases h : v < m
    · rw [findMinAux, if_pos h]
      exact ih (i + 1) v i hrest (Or.inl ⟨hi, hv⟩)
    · rw [findMinAux, if_neg h]
      exact ih (i + 1) m idx hrest hinv

theorem find_min_index_spec (vec : List EF) (h : 0 < vec.length) :
    Minimum.find_min_index vec < vec.length ∧
      vec.getD (Minimum.find_min_index vec) ⊤ = listMinEF vec := by
  have h2 := findMinAux_snd vec vec 0 ⊤ 0 (by simp) (Or.inr ⟨rfl, rfl⟩)
  have h1 := findMinAux_fst vec 0 ⊤ 0
  rw [min_eq_left le_top] at h1
  unfold Minimum.find_min_index
  rcases h2 with ⟨ha, hb⟩ | ⟨ha, hb⟩
  · exact ⟨ha, by rw [hb, h1]⟩
  · rw [h1] at ha
    refine ⟨by rw [hb]; exact h, ?_⟩
    rw [hb, ha]
    refine eq_top_of_listMinEF_eq_top ha _ ?_
    rw [List.getD_eq_getElem vec ⊤ h]
    exact List.getElem_mem h

/-- The reference value ("true minimum"): minimum over the window contents,
i.e. over the last `n` inputs. -/
def windowMin (n : Nat) (l : List ℚ) : EF := listMinEF ((lastN n l).map EF.fin)

/-- The reference value for the maximum tracker. -/
def windowMax (n : Nat) (l : List ℚ) : EF := listMaxEF ((lastN n l).map EF.fin)

theorem getD_set_self {α : Type} (l : List α) (i : Nat) (a d : α) (h : i < l.length) :
    (l.set i a).getD i d = a := by
  rw [List.getD_eq_getElem _ _ (by simpa using h)]
  exact List.getElem_set_self _

theorem getD_set_ne {α : Type} (l : List α) (i j : Nat) (a d : α) (hij : i ≠ j) :
    (l.set i a).getD j d = l.getD j d := by
  by_cases hj : j < l.length
  · rw [List.getD_eq_getElem _ _ (by simpa using hj), List.getD_eq_getElem _ _ hj]
    exact List.getElem_set_ne hij _
  · rw [List.getD_eq_default _ _ (by simpa using not_lt.1 hj),
      List.getD_eq_default _ _ (not_lt.1 hj)]

theorem getD_mem {α : Type} (l : List α) (i : Nat) (d : α) (h : i < l.length) :
    l.getD i d ∈ l := by
  rw [List.getD_eq_getElem _ _ h]
  exact List.getElem_mem h

/-- One circular-buffer step on the "sentinels followed by window" view:
dropping the oldest entry and appending the new one. -/
theorem replicate_window_tail {α β : Type} {n : Nat} (hn : 1 ≤ n) (e : β) (f : α → β)
    (xs : List α) (x : α) :
    (List.replicate (n - xs.length) e ++ (lastN n xs).map f).tail ++ [f x] =
      List.replicate (n - (xs.length + 1)) e ++ (lastN n (xs ++ [x])).map f := by
  rcases lt_or_ge xs.length n with hk | hk
  · rw [lastN_of_le (le_of_lt hk), lastN_append_singleton_of_lt hk]
    have hrep : n - xs.length = (n - (xs.length + 1)) + 1 := by omega
    rw [hrep, List.replicate_succ, List.cons_append, List.tail_cons, List.map_append]
    simp [List.append_assoc]
  · have h0 : n - xs.length = 0 := by omega
    have h1 : n - (xs.length + 1) = 0 := by omega
    rw [h0, h1, List.replicate_zero, List.nil_append, List.nil_append,
      lastN_append_singleton_of_ge hn hk, List.map_append]
    congr 1
    cases h2 : lastN n xs with
    | nil => simp
    | cons a t => simp

/-- The main preservation lemma for the minimum tracker: one `calc` call from
a reachable state reaches the extended input list and returns the minimum of
the new window. -/
theorem MinReach.min_step {n : Nat} {xs : List ℚ} {s : Minimum} (h : MinReach n xs s)
    (hn : 1 ≤ n) (x : ℚ) :
    MinReach n (xs ++ [x]) (s.calc' x).1 ∧ (s.calc' x).2 = windowMin n (xs ++ [x]) := by
  obtain ⟨hsn, hlen, hcur, hmi, hrot, hmin⟩ := h
  set c' := (s.cur_index + 1) % s.n with hc'
  set v' := s.vec.set c' (EF.fin x) with hv'
  set mi' := (if EF.fin x < v'.getD s.min_index ⊤ then c'
              else if s.min_index = c' then Minimum.find_min_index v'
              else s.min_index) with hmi'
  have hcalc : s.calc' x = (⟨s.n, v', mi', c'⟩, v'.getD mi' ⊤) := rfl
  have hnpos : 0 < s.n := by omega
  have hc'lt : c' < n := by
    rw [hc', hsn]
    exact Nat.mod_lt _ (by omega)
  have hlen' : v'.length = n := by rw [hv', List.length_set, hlen]
  -- The rotated view of the new buffer.
  have hrot' : v'.rotate (c' + 1) =
      List.replicate (n - (xs.length + 1)) ⊤ ++ (lastN n (xs ++ [x])).map EF.fin := by
    rw [hv', rotate_set_succ _ _ _ (by omega)]
    have hmod : s.vec.rotate c' = s.vec.rotate (s.cur_index + 1) := by
      rw [hc', show s.n = s.vec.length from hsn.trans hlen.symm, List.rotate_mod]
    rw [hmod, hrot]
    rw [replicate_window_tail hn (⊤ : EF) EF.fin xs x]
  -- The minimum over the new buffer is the window minimum.
  have hwin : listMinEF v' = windowMin n (xs ++ [x]) := by
    rw [← listMinEF_rotate v' (c' + 1), hrot', listMinEF_replicate_top_append]
    rfl
  -- The value just written.
  have hgetc' : v'.getD c' ⊤ = EF.fin x := by
    rw [hv']
    exact getD_set_self _ _ _ _ (by omega)
  have hmemx : EF.fin x ∈ v' := by
    rw [← hgetc']
    exact getD_mem _ _ _ (by omega)
  -- The three cases of the cache-update rule.
  have hmin' : v'.getD mi' ⊤ = listMinEF v' ∧ mi' < n := by
    rw [hmi']
    by_cases hA : EF.fin x < v'.getD s.min_index ⊤
    · rw [if_pos hA]
      have hne : s.min_index ≠ c' := by
        intro he
        rw [he, hgetc'] at hA
        exact lt_irrefl _ hA
      have hold : v'.getD s.min_index ⊤ = listMinEF s.vec := by
        rw [hv', getD_set_ne _ _ _ _ _ (fun he => hne he.symm), hmin]
      rw [hold] at hA
      have hxle : ∀ e ∈ v', EF.fin x ≤ e := by
        intro e he
        rcases List.mem_or_eq_of_mem_set he with he | rfl
        · exact le_of_lt (lt_of_lt_of_le hA (listMinEF_le_of_mem he))
        · exact le_refl _
      rw [hgetc', listMinEF_eq_of hmemx hxle]
      exact ⟨rfl, hc'lt⟩
    · rw [if_neg hA]
      by_cases hB : s.min_index = c'
      · rw [if_pos hB]
        have hspec := find_min_index_spec v' (by omega)
        exact ⟨hspec.2, by omega⟩
      · rw [if_neg hB]
        have hold : v'.getD s.min_index ⊤ = listMinEF s.vec := by
          rw [hv', getD_set_ne _ _ _ _ _ (fun he => hB he.symm), hmin]
        have hxge : listMinEF s.vec ≤ EF.fin x := by
          rw [← hold]
          exact not_lt.1 hA
        have hle : listMinEF s.vec ≤ listMinEF v' := by
          refine le_listMinEF ?_
          intro e he
          rcases List.mem_or_eq_of_mem_set he with he | rfl
          · exact listMinEF_le_of_mem he
          · exact hxge
        have hge : listMinEF v' ≤ listMinEF s.vec := by
          rw [← hold]
          exact listMinEF_le_of_mem (hold ▸ (getD_mem v' s.min_index ⊤ (by omega)))
        rw [hold, le_antisymm hge hle]
        exact ⟨rfl, hmi⟩
  have hf1 : (s.calc' x).1.vec = v' := by rw [hcalc]
  have hf2 : (s.calc' x).1.min_index = mi' := by rw [hcalc]
  have hf3 : (s.calc' x).1.cur_index = c' := by rw [hcalc]
  have hf4 : (s.calc' x).1.n = s.n := by rw [hcalc]
  have hf5 : (s.calc' x).2 = v'.getD mi' ⊤ := by rw [hcalc]
  have hlapp : (xs ++ [x]).length = xs.length + 1 := by simp
  refine ⟨⟨?_, ?_, ?_, ?_, ?_, ?_⟩, ?_⟩
  · rw [hf4, hsn]
  · rw [hf1, hlen']
  · rw [hf3]
    exact hc'lt
  · rw [hf2]
    exact hmin'.2
  · rw [hf1, hf3, hlapp]
    exact hrot'
  · rw [hf1, hf2]
    exact hmin'.1
  · rw [hf5, hmin'.1, hwin]

/-- The expected output sequence of a minimum tracker that already holds the
inputs `pre` and is then fed `ys`: the window minimum after each input. -/
def windowMins (n : Nat) (pre : List ℚ) : List ℚ → List EF
  | [] => []
  | y :: ys => windowMin n (pre ++ [y]) :: windowMins n (pre ++ [y]) ys

theorem Minimum.min_run_spec {n : Nat} (hn : 1 ≤ n) :
    ∀ (ys pre : List ℚ) (s : Minimum), MinReach n pre s →
      (s.run ys).2 = windowMins n pre ys ∧ MinReach n (pre ++ ys) (s.run ys).1 := by
  intro ys
  induction ys with
  | nil =>
    intro pre s h
    exact ⟨rfl, by simpa using h⟩
  | cons y t ih =>
    intro pre s h
    have hstep := h.min_step hn y
    have hih := ih (pre ++ [y]) (s.calc' y).1 hstep.1
    refine ⟨?_, ?_⟩
    · rw [Minimum.min_run_cons, windowMins, hstep.2, hih.1]
    · rw [Minimum.min_run_cons]
      have happ : pre ++ y :: t = (pre ++ [y]) ++ t := by simp
      rw [happ]
      exact hih.2

theorem minReach_run {n : Nat} (hn : 1 ≤ n) (xs : List ℚ) :
    MinReach n xs ((Minimum.mkfresh n).run xs).1 := by
  have h := Minimum.min_run_spec hn xs [] (Minimum.mkfresh n) (minReach_init n hn)
  simpa using h.2

theorem windowMins_getD (n : Nat) :
    ∀ (ys pre : List ℚ) (k : Nat), k < ys.length →
      (windowMins n pre ys).getD k ⊥ = windowMin n (pre ++ ys.take (k + 1)) := by
  intro ys
  induction ys with
  | nil =>
    intro pre k h
    simp at h
  | cons y t ih =>
    intro pre k hk
    cases k with
    | zero => simp [windowMins]
    | succ j =>
      rw [windowMins, List.getD_cons_succ, ih (pre ++ [y]) j (by simpa using hk)]
      congr 1
      simp

theorem getD_replicate_self {α : Type} (n i : Nat) (a : α) :
    (List.replicate n a).getD i a = a := by
  by_cases h : i < n
  · rw [List.getD_eq_getElem _ _ (by simpa using h)]
    simp
  · rw [List.getD_eq_default _ _ (by simpa using not_lt.1 h)]

theorem MinReach.min_reset {n : Nat} {xs : List ℚ} {s : Minimum} (h : MinReach n xs s) :
    MinReach n [] s.reset := by
  obtain ⟨hsn, hlen, hcur, hmi, hrot, hmin⟩ := h
  refine ⟨hsn, by simp [Minimum.reset, hsn], hcur, hmi, ?_, ?_⟩
  · simp [Minimum.reset, List.rotate_replicate, hsn]
  · show (List.replicate s.n ⊤).getD s.min_index ⊤ = listMinEF (List.replicate s.n ⊤)
    rw [listMinEF_replicate_top, getD_replicate_self]

/-- C1: sliding-minimum correctness.  For every window length `n ≥ 1` and
every finite sequence of (finite, non-NaN) inputs, the value returned after
the `(k+1)`-st call equals the true minimum of the last `min(n, k+1)` inputs:
it is `windowMin n` of the processed prefix, and that value is a member of
the window which is below every window element. -/
theorem c1_minimum_sliding_correct (n : Nat) (hn : 1 ≤ n) (xs : List ℚ) (k : Nat)
    (hk : k < xs.length) :
    (((Minimum.mkfresh n).run xs).2).getD k ⊥ = windowMin n (xs.take (k + 1)) ∧
    ∃ m : ℚ, windowMin n (xs.take (k + 1)) = EF.fin m ∧
      m ∈ lastN n (xs.take (k + 1)) ∧ ∀ y ∈ lastN n (xs.take (k + 1)), m ≤ y := by
  have hrun := Minimum.min_run_spec hn xs [] (Minimum.mkfresh n) (minReach_init n hn)
  constructor
  · rw [hrun.1, windowMins_getD n xs [] k hk]
    simp
  · have hne : lastN n (xs.take (k + 1)) ≠ [] := by
      apply List.ne_nil_of_length_pos
      rw [lastN_length]
      simp only [List.length_take]
      omega
    obtain ⟨m, hm, hmem, hle⟩ := listMinEF_map_fin hne
    exact ⟨m, hm, hmem, hle⟩

/-- Witness for C1 at `n = 3`, inputs `[40, 12, 50, 30]`, fourth output. -/
theorem c1_witness :
    (((Minimum.mkfresh 3).run [40, 12, 50, 30]).2).getD 3 ⊥ =
      windowMin 3 ([40, 12, 50, 30].take 4) ∧
    ∃ m : ℚ, windowMin 3 (([40, 12, 50, 30] : List ℚ).take 4) = EF.fin m ∧
      m ∈ lastN 3 (([40, 12, 50, 30] : List ℚ).take 4) ∧
      ∀ y ∈ lastN 3 (([40, 12, 50, 30] : List ℚ).take 4), m ≤ y :=
  c1_minimum_sliding_correct 3 (by decide) [40, 12, 50, 30] 3 (by decide)

/-- C2 counterexample: the cache-update rule does NOT move the cached index to
the cursor on ties.  Feeding `1` twice into a length-2 tracker: on the second
call the new value `1` is `≤` the cached extremum (also `1`), yet the cached
index stays at the old slot `1` while the cursor is `0`. -/
theorem c2_counterexample :
    EF.fin 1 ≤ (((Minimum.mkfresh 2).calc' 1).1).vec.getD
        (((Minimum.mkfresh 2).calc' 1).1).min_index ⊤ ∧
    ((((Minimum.mkfresh 2).calc' 1).1).calc' 1).1.min_index ≠
      ((((Minimum.mkfresh 2).calc' 1).1).calc' 1).1.cur_index := by decide

/-- C2 (amended): on every call from a reachable state, if the new value is
STRICTLY more extreme than (strictly less than, for the minimum tracker) the
cached extremum value, then after the call the cached extremum index equals
the cursor index of the slot just written.  On ties the cached index is left
unchanged (the older slot survives), except that overwriting the extremum
holder triggers a rescan. -/
theorem c2_amended_strict_update {n : Nat} {xs : List ℚ} {s : Minimum}
    (h : MinReach n xs s) (hn : 1 ≤ n) (x : ℚ)
    (hlt : EF.fin x < s.vec.getD s.min_index ⊤) :
    (s.calc' x).1.min_index = (s.calc' x).1.cur_index := by
  obtain ⟨hsn, hlen, hcur, hmi, hrot, hmin⟩ := h
  set c' := (s.cur_index + 1) % s.n with hc'
  set v' := s.vec.set c' (EF.fin x) with hv'
  set mi' := (if EF.fin x < v'.getD s.min_index ⊤ then c'
              else if s.min_index = c' then Minimum.find_min_index v'
              else s.min_index) with hmi'
  have hcalc : s.calc' x = (⟨s.n, v', mi', c'⟩, v'.getD mi' ⊤) := rfl
  have hf2 : (s.calc' x).1.min_index = mi' := by rw [hcalc]
  have hf3 : (s.calc' x).1.cur_index = c' := by rw [hcalc]
  rw [hf2, hf3, hmi']
  have hc'lt : c' < n := by
    rw [hc', hsn]
    exact Nat.mod_lt _ (by omega)
  have hgetc' : v'.getD c' ⊤ = EF.fin x := by
    rw [hv']
    exact getD_set_self _ _ _ _ (by omega)
  by_cases hB : s.min_index = c'
  · rw [hB] at hlt hmin
    rw [if_neg (by rw [hB, hgetc']; exact lt_irrefl _), if_pos hB]
    -- the rescan must find the freshly written slot: it holds the strict minimum
    have hxlt : EF.fin x < listMinEF s.vec := hmin ▸ hlt
    have hxle : ∀ e ∈ v', EF.fin x ≤ e := by
      intro e he
      rcases List.mem_or_eq_of_mem_set he with he | rfl
      · exact le_of_lt (lt_of_lt_of_le hxlt (listMinEF_le_of_mem he))
      · exact le_refl _
    have hmemx : EF.fin x ∈ v' := by
      rw [← hgetc']
      exact getD_mem _ _ _ (by rw [hv', List.length_set]; omega)
    have hminv' : listMinEF v' = EF.fin x := listMinEF_eq_of hmemx hxle
    have hspec := find_min_index_spec v' (by rw [hv', List.length_set]; omega)
    by_contra hne
    have hgetr : v'.getD (Minimum.find_min_index v') ⊤ =
        s.vec.getD (Minimum.find_min_index v') ⊤ := by
      rw [hv']
      exact getD_set_ne _ _ _ _ _ (fun he => hne he.symm)
    have h1 : listMinEF s.vec ≤ v'.getD (Minimum.find_min_index v') ⊤ := by
      rw [hgetr]
      apply listMinEF_le_of_mem
      apply getD_mem
      rw [hlen]
      rw [hv', List.length_set, hlen] at hspec
      exact hspec.1
    rw [hspec.2, hminv'] at h1
    exact absurd hxlt (not_lt.2 h1)
  · have hpre : v'.getD s.min_index ⊤ = s.vec.getD s.min_index ⊤ := by
      rw [hv']
      exact getD_set_ne _ _ _ _ _ (fun he => hB he.symm)
    rw [if_pos (hpre ▸ hlt)]

/-- Witness for C2 (amended) at `n = 2`, empty history, input `0`. -/
theorem c2_witness :
    ((Minimum.mkfresh 2).calc' 0).1.min_index = ((Minimum.mkfresh 2).calc' 0).1.cur_index :=
  c2_amended_strict_update (minReach_init 2 (by decide)) (by decide) 0 (by decide)

/-- C3 counterexample: `reset` does NOT rewind the cursor to its initial
position.  After one update on a fresh length-2 tracker the cursor is `1`;
`reset` keeps it at `1`, while the post-construction cursor is `0` (the slots
themselves are restored to the sentinel). -/
theorem c3_counterexample :
    (((Minimum.mkfresh 2).calc' 1).1.reset).cur_index ≠ (Minimum.mkfresh 2).cur_index ∧
    (((Minimum.mkfresh 2).calc' 1).1.reset).vec = (Minimum.mkfresh 2).vec ∧
    (((Minimum.mkfresh 2).calc' 1).1.reset).n = (Minimum.mkfresh 2).n := by decide

/-- C3 (amended): `reset` writes the sentinel (positive infinity, for the
minimum tracker) into every slot and leaves `length` unchanged, but it does
NOT rewind the cursor or the cached extremum index: they keep whatever values
they had.  (The resulting state is nevertheless observationally equivalent to
a fresh one; see the reset-replay theorem for C4.) -/
theorem c3_amended_reset_state (s : Minimum) :
    s.reset.vec = List.replicate s.n ⊤ ∧ s.reset.n = s.n ∧
    s.reset.cur_index = s.cur_index ∧ s.reset.min_index = s.min_index :=
  ⟨rfl, rfl, rfl, rfl⟩

/-- Modelled from the spec: the `Maximum` indicator used by `FastStochastic`
(its source file `maximum.rs` is not among the provided sources).  Per the
spec it is "the same algorithm with the comparison inverted": a fixed-size
circular buffer whose unfilled slots hold the `NEG_INFINITY` sentinel, with a
cached index of the current maximum. -/
structure Maximum where
  n : Nat
  vec : List EF
  max_index : Nat
  cur_index : Nat

/-- Modelled from the spec: the state built by `Maximum::new` for a positive
length (all slots at the negative-infinity sentinel). -/
def Maximum.mkfresh (n : Nat) : Maximum :=
  { n := n, vec := List.replicate n ⊥, max_index := 0, cur_index := 0 }

/-- Modelled from the spec: `Maximum::new`, rejecting a zero length with
`InvalidParameter`. -/
def Maximum.new (n : Nat) : Except ErrorKind Maximum :=
  if n = 0 then .error .InvalidParameter else .ok (Maximum.mkfresh n)

/-- Modelled from the spec: the rescan loop of the maximum tracker, the
mirror image of `findMinAux`. -/
def findMaxAux : List EF → Nat → EF → Nat → EF × Nat
  | [], _, m, idx => (m, idx)
  | v :: rest, i, m, idx =>
    if m < v then findMaxAux rest (i + 1) v i else findMaxAux rest (i + 1) m idx

/-- Modelled from the spec: full linear rescan for the maximum. -/
def Maximum.find_max_index (vec : List EF) : Nat := (findMaxAux vec 0 ⊥ 0).2

/-- Modelled from the spec: `Maximum::calc`, the mirror image of
`Minimum::calc` with the comparison inverted and the `NEG_INFINITY`
sentinel. -/
def Maximum.calc' (s : Maximum) (input : ℚ) : Maximum × EF :=
  let cur := (s.cur_index + 1) % s.n
  let v := s.vec.set cur (EF.fin input)
  let mi :=
    if v.getD s.max_index ⊥ < EF.fin input then cur
    else if s.max_index = cur then Maximum.find_max_index v
    else s.max_index
  (⟨s.n, v, mi, cur⟩, v.getD mi ⊥)

/-- Modelled from the spec: `Maximum::reset` writes the sentinel into every
slot (mirroring `Minimum::reset`, which touches nothing else). -/
def Maximum.reset (s : Maximum) : Maximum :=
  { s with vec := List.replicate s.n ⊥ }

/-- Drive a `Maximum` over a list of inputs, collecting the returned values. -/
def Maximum.run (s : Maximum) : List ℚ → Maximum × List EF
  | [] => (s, [])
  | x :: xs =>
    let p := s.calc' x
    let q := p.1.run xs
    (q.1, p.2 :: q.2)

@[simp] theorem Maximum.max_run_nil (s : Maximum) : s.run [] = (s, []) := rfl

theorem Maximum.max_run_cons (s : Maximum) (x : ℚ) (xs : List ℚ) :
    s.run (x :: xs) = (((s.calc' x).1.run xs).1, (s.calc' x).2 :: ((s.calc' x).1.run xs).2) :=
  rfl

@[simp] theorem Maximum.max_run_length (s : Maximum) (xs : List ℚ) :
    (s.run xs).2.length = xs.length := by
  induction xs generalizing s with
  | nil => rfl
  | cons x t ih => simp [Maximum.max_run_cons, ih]

-- Sanity check: the mirrored behaviour on the scaled `minimum.rs` test data.
example :
    ((Maximum.mkfresh 3).run [40, 12, 50, 30]).2 =
      [EF.fin 40, EF.fin 40, EF.fin 50, EF.fin 50] := by decide

/-- The reachability invariant of `Maximum`, mirroring `MinReach`. -/
structure MaxReach (n : Nat) (xs : List ℚ) (s : Maximum) : Prop where
  hn : s.n = n
  hlen : s.vec.length = n
  hcur : s.cur_index < n
  hmi : s.max_index < n
  hrot : s.vec.rotate (s.cur_index + 1) =
    List.replicate (n - xs.length) ⊥ ++ (lastN n xs).map EF.fin
  hmax : s.vec.getD s.max_index ⊥ = listMaxEF s.vec

theorem maxReach_init (n : Nat) (hn : 1 ≤ n) : MaxReach n [] (Maximum.mkfresh n) where
  hn := rfl
  hlen := by simp [Maximum.mkfresh]
  hcur := hn
  hmi := hn
  hrot := by simp [Maximum.mkfresh, List.rotate_replicate]
  hmax := by
    show (List.replicate n ⊥).getD 0 ⊥ = listMaxEF (List.replicate n ⊥)
    rw [listMaxEF_replicate_bot, getD_replicate_self]

theorem findMaxAux_fst (l : List EF) : ∀ (i : Nat) (m : EF) (idx : Nat),
    (findMaxAux l i m idx).1 = max (listMaxEF l) m := by
  induction l with
  | nil => intro i m idx; simp [findMaxAux]
  | cons v rest ih =>
    intro i m idx
    by_cases h : m < v
    · rw [findMaxAux, if_pos h, ih, listMaxEF_cons]
      rw [max_eq_left (le_trans (le_of_lt h) (le_max_left _ _) :
        m ≤ max v (listMaxEF rest)), max_comm]
    · rw [findMaxAux, if_neg h, ih, listMaxEF_cons, max_assoc,
        max_eq_right (le_trans (not_lt.1 h) (le_max_right _ _) : v ≤ max (listMaxEF rest) m)]

theorem findMaxAux_snd (vec : List EF) : ∀ (l : List EF) (i : Nat) (m : EF) (idx : Nat),
    l = vec.drop i →
    ((idx < vec.length ∧ vec.getD idx ⊥ = m) ∨ (m = ⊥ ∧ idx = 0)) →
    ((findMaxAux l i m idx).2 < vec.length ∧
      vec.getD (findMaxAux l i m idx).2 ⊥ = (findMaxAux l i m idx).1) ∨
    ((findMaxAux l i m idx).1 = ⊥ ∧ (findMaxAux l i m idx).2 = 0) := by
  intro l
  induction l with
  | nil =>
    intro i m idx _ hinv
    rcases hinv with ⟨h1, h2⟩ | ⟨h1, h2⟩
    · exact Or.inl ⟨h1, h2⟩
    · exact Or.inr ⟨h1, h2⟩
  | cons v rest ih =>
    intro i m idx hdrop hinv
    have hi : i < vec.length := by
      by_contra hge
      rw [List.drop_eq_nil_of_le (not_lt.1 hge)] at hdrop
      exact List.cons_ne_nil v rest hdrop
    have hv : vec.getD i ⊥ = v := by
      rw [List.getD_eq_getElem vec ⊥ hi]
      have h0 : (vec.drop i).getD 0 ⊥ = v := by
        rw [← hdrop]
        rfl
      rw [List.getD_eq_getElem _ _ (show 0 < (vec.drop i).length by rw [← hdrop]; simp),
        List.getElem_drop] at h0
      simpa using h0
    have hrest : rest = vec.drop (i + 1) := by
      have h0 : (v :: rest).tail = (vec.drop i).tail := by rw [hdrop]
      simpa [List.tail_drop] using h0
    by_cases h : m < v
    · rw [findMaxAux, if_pos h]
      exact ih (i + 1) v i hrest (Or.inl ⟨hi, hv⟩)
    · rw [findMaxAux, if_neg h]
      exact ih (i + 1) m idx hrest hinv

theorem find_max_index_spec (vec : List EF) (h : 0 < vec.length) :
    Maximum.find_max_index vec < vec.length ∧
      vec.getD (Maximum.find_max_index vec) ⊥ = listMaxEF vec := by
  have h2 := findMaxAux_snd vec vec 0 ⊥ 0 (by simp) (Or.inr ⟨rfl, rfl⟩)
  have h1 := findMaxAux_fst vec 0 ⊥ 0
  rw [max_eq_left bot_le] at h1
  unfold Maximum.find_max_index
  rcases h2 with ⟨ha, hb⟩ | ⟨ha, hb⟩
  · exact ⟨ha, by rw [hb, h1]⟩
  · rw [h1] at ha
    refine ⟨by rw [hb]; exact h, ?_⟩
    rw [hb, ha]
    refine eq_bot_of_listMaxEF_eq_bot ha _ ?_
    rw [List.getD_eq_getElem vec ⊥ h]
    exact List.getElem_mem h

/-- The preservation lemma for the maximum tracker, mirroring
`MinReach.min_step`. -/
theorem MaxReach.max_step {n : Nat} {xs : List ℚ} {s : Maximum} (h : MaxReach n xs s)
    (hn : 1 ≤ n) (x : ℚ) :
    MaxReach n (xs ++ [x]) (s.calc' x).1 ∧ (s.calc' x).2 = windowMax n (xs ++ [x]) := by
  obtain ⟨hsn, hlen, hcur, hmi, hrot, hmax⟩ := h
  set c' := (s.cur_index + 1) % s.n with hc'
  set v' := s.vec.set c' (EF.fin x) with hv'
  set mi' := (if v'.getD s.max_index ⊥ < EF.fin x then c'
              else if s.max_index = c' then Maximum.find_max_index v'
              else s.max_index) with hmi'
  have hcalc : s.calc' x = (⟨s.n, v', mi', c'⟩, v'.getD mi' ⊥) := rfl
  have hnpos : 0 < s.n := by omega
  have hc'lt : c' < n := by
    rw [hc', hsn]
    exact Nat.mod_lt _ (by omega)
  have hlen' : v'.length = n := by rw [hv', List.length_set, hlen]
  have hrot' : v'.rotate (c' + 1) =
      List.replicate (n - (xs.length + 1)) ⊥ ++ (lastN n (xs ++ [x])).map EF.fin := by
    rw [hv', rotate_set_succ _ _ _ (by omega)]
    have hmod : s.vec.rotate c' = s.vec.rotate (s.cur_index + 1) := by
      rw [hc', show s.n = s.vec.length from hsn.trans hlen.symm, List.rotate_mod]
    rw [hmod, hrot]
    rw [replicate_window_tail hn (⊥ : EF) EF.fin xs x]
  have hwin : listMaxEF v' = windowMax n (xs ++ [x]) := by
    rw [← listMaxEF_rotate v' (c' + 1), hrot', listMaxEF_replicate_bot_append]
    rfl
  have hgetc' : v'.getD c' ⊥ = EF.fin x := by
    rw [hv']
    exact getD_set_self _ _ _ _ (by omega)
  have hmemx : EF.fin x ∈ v' := by
    rw [← hgetc']
    exact getD_mem _ _ _ (by omega)
  have hmax' : v'.getD mi' ⊥ = listMaxEF v' ∧ mi' < n := by
    rw [hmi']
    by_cases hA : v'.getD s.max_index ⊥ < EF.fin x
    · rw [if_pos hA]
      have hne : s.max_index ≠ c' := by
        intro he
        rw [he, hgetc'] at hA
        exact lt_irrefl _ hA
      have hold : v'.getD s.max_index ⊥ = listMaxEF s.vec := by
        rw [hv', getD_set_ne _ _ _ _ _ (fun he => hne he.symm), hmax]
      rw [hold] at hA
      have hxge : ∀ e ∈ v', e ≤ EF.fin x := by
        intro e he
        rcases List.mem_or_eq_of_mem_set he with he | rfl
        · exact le_of_lt (lt_of_le_of_lt (le_listMaxEF_of_mem he) hA)
        · exact le_refl _
      rw [hgetc', listMaxEF_eq_of hmemx hxge]
      exact ⟨rfl, hc'lt⟩
    · rw [if_neg hA]
      by_cases hB : s.max_index = c'
      · rw [if_pos hB]
        have hspec := find_max_index_spec v' (by omega)
        exact ⟨hspec.2, by omega⟩
      · rw [if_neg hB]
        have hold : v'.getD s.max_index ⊥ = listMaxEF s.vec := by
          rw [hv', getD_set_ne _ _ _ _ _ (fun he => hB he.symm), hmax]
        have hxle : EF.fin x ≤ listMaxEF s.vec := by
          rw [← hold]
          exact not_lt.1 hA
        have hge : listMaxEF v' ≤ listMaxEF s.vec := by
          refine listMaxEF_le ?_
          intro e he
          rcases List.mem_or_eq_of_mem_set he with he | rfl
          · exact le_listMaxEF_of_mem he
          · exact hxle
        have hle : listMaxEF s.vec ≤ listMaxEF v' := by
          rw [← hold]
          exact le_listMaxEF_of_mem (hold ▸ (getD_mem v' s.max_index ⊥ (by omega)))
        rw [hold, le_antisymm hge hle]
        exact ⟨rfl, hmi⟩
  have hf1 : (s.calc' x).1.vec = v' := by rw [hcalc]
  have hf2 : (s.calc' x).1.max_index = mi' := by rw [hcalc]
  have hf3 : (s.calc' x).1.cur_index = c' := by rw [hcalc]
  have hf4 : (s.calc' x).1.n = s.n := by rw [hcalc]
  have hf5 : (s.calc' x).2 = v'.getD mi' ⊥ := by rw [hcalc]
  have hlapp : (xs ++ [x]).length = xs.length + 1 := by simp
  refine ⟨⟨?_, ?_, ?_, ?_, ?_, ?_⟩, ?_⟩
  · rw [hf4, hsn]
  · rw [hf1, hlen']
  · rw [hf3]
    exact hc'lt
  · rw [hf2]
    exact hmax'.2
  · rw [hf1, hf3, hlapp]
    exact hrot'
  · rw [hf1, hf2]
    exact hmax'.1
  · rw [hf5, hmax'.1, hwin]

/-- The expected output sequence of a maximum tracker, mirroring
`windowMins`. -/
def windowMaxs (n : Nat) (pre : List ℚ) : List ℚ → List EF
  | [] => []
  | y :: ys => windowMax n (pre ++ [y]) :: windowMaxs n (pre ++ [y]) ys

theorem Maximum.max_run_spec {n : Nat} (hn : 1 ≤ n) :
    ∀ (ys pre : List ℚ) (s : Maximum), MaxReach n pre s →
      (s.run ys).2 = windowMaxs n pre ys ∧ MaxReach n (pre ++ ys) (s.run ys).1 := by
  intro ys
  induction ys with
  | nil =>
    intro pre s h
    exact ⟨rfl, by simpa using h⟩
  | cons y t ih =>
    intro pre s h
    have hstep := h.max_step hn y
    have hih := ih (pre ++ [y]) (s.calc' y).1 hstep.1
    refine ⟨?_, ?_⟩
    · rw [Maximum.max_run_cons, windowMaxs, hstep.2, hih.1]
    · rw [Maximum.max_run_cons]
      have happ : pre ++ y :: t = (pre ++ [y]) ++ t := by simp
      rw [happ]
      exact hih.2

theorem maxReach_run {n : Nat} (hn : 1 ≤ n) (xs : List ℚ) :
    MaxReach n xs ((Maximum.mkfresh n).run xs).1 := by
  have h := Maximum.max_run_spec hn xs [] (Maximum.mkfresh n) (maxReach_init n hn)
  simpa using h.2

theorem MaxReach.max_reset {n : Nat} {xs : List ℚ} {s : Maximum} (h : MaxReach n xs s) :
    MaxReach n [] s.reset := by
  obtain ⟨hsn, hlen, hcur, hmi, hrot, hmax⟩ := h
  refine ⟨hsn, by simp [Maximum.reset, hsn], hcur, hmi, ?_, ?_⟩
  · simp [Maximum.reset, List.rotate_replicate, hsn]
  · show (List.replicate s.n ⊥).getD s.max_index ⊥ = listMaxEF (List.replicate s.n ⊥)
    rw [listMaxEF_replicate_bot, getD_replicate_self]

/-- `FastStochastic` from `src/indicators/fast_stochastic.rs`: a minimum and
a maximum tracker of the same length. -/
structure FastStochastic where
  length : Nat
  minimum : Minimum
  maximum : Maximum

/-- The state built by `FastStochastic::new` for a positive length. -/
def FastStochastic.mkfresh (n : Nat) : FastStochastic :=
  ⟨n, Minimum.mkfresh n, Maximum.mkfresh n⟩

/-- `FastStochastic::new`: builds both trackers, propagating their
`InvalidParameter` error (the `?` operator). -/
def FastStochastic.new (n : Nat) : Except ErrorKind FastStochastic := do
  let m ← Minimum.new n
  let mx ← Maximum.new n
  return ⟨n, m, mx⟩

/-- `FastStochastic::calc` (the `Calculate` impl): feed the input to both
trackers; if the tracked extremes coincide return `50.0`, otherwise the
normalized position of the input in the range, scaled to `[0, 100]`.
`EF.toRat` is exact here: from any reachable state with finite inputs both
tracker outputs are finite (their window contains the input just fed). -/
def FastStochastic.calc' (s : FastStochastic) (input : ℚ) : FastStochastic × ℚ :=
  let pmin := s.minimum.calc' input
  let pmax := s.maximum.calc' input
  let out := if pmin.2 = pmax.2 then (50 : ℚ)
             else (input - pmin.2.toRat) / (pmax.2.toRat - pmin.2.toRat) * 100
  (⟨s.length, pmin.1, pmax.1⟩, out)

/-- `FastStochastic::next` (the `Next` impl for bar-like inputs): the high
goes into the maximum tracker, the low into the minimum tracker, and the
close is normalized against the resulting range. -/
def FastStochastic.next (s : FastStochastic) (high low close : ℚ) : FastStochastic × ℚ :=
  let pmax := s.maximum.calc' high
  let pmin := s.minimum.calc' low
  let out := if pmax.2 = pmin.2 then (50 : ℚ)
             else (close - pmin.2.toRat) / (pmax.2.toRat - pmin.2.toRat) * 100
  (⟨s.length, pmin.1, pmax.1⟩, out)

/-- `FastStochastic::reset`: resets both trackers. -/
def FastStochastic.reset (s : FastStochastic) : FastStochastic :=
  ⟨s.length, s.minimum.reset, s.maximum.reset⟩

/-- Drive a `FastStochastic` over single-channel inputs. -/
def FastStochastic.run (s : FastStochastic) : List ℚ → FastStochastic × List ℚ
  | [] => (s, [])
  | x :: xs =>
    let p := s.calc' x
    let q := p.1.run xs
    (q.1, p.2 :: q.2)

/-- One update of a `FastStochastic`, in either of its two forms: a bare
scalar (`calc`) or a high/low/close bar (`next`). -/
inductive Upd where
  | scalar : ℚ → Upd
  | bar : ℚ → ℚ → ℚ → Upd

/-- Apply one update, keeping only the state. -/
def FastStochastic.applyUpd (s : FastStochastic) : Upd → FastStochastic
  | .scalar v => (s.calc' v).1
  | .bar h l c => (s.next h l c).1

/-- Apply a history of updates. -/
def FastStochastic.applyUpds (s : FastStochastic) : List Upd → FastStochastic
  | [] => s
  | u :: us => (s.applyUpd u).applyUpds us

@[simp] theorem FastStochastic.fs_run_nil (s : FastStochastic) : s.run [] = (s, []) := rfl

theorem FastStochastic.fs_run_cons (s : FastStochastic) (x : ℚ) (xs : List ℚ) :
    s.run (x :: xs) =
      (((s.calc' x).1.run xs).1, (s.calc' x).2 :: ((s.calc' x).1.run xs).2) := rfl

-- Definitional projections of one `calc`/`next` call.
theorem FastStochastic.calc_minimum (s : FastStochastic) (x : ℚ) :
    (s.calc' x).1.minimum = (s.minimum.calc' x).1 := rfl

theorem FastStochastic.calc_maximum (s : FastStochastic) (x : ℚ) :
    (s.calc' x).1.maximum = (s.maximum.calc' x).1 := rfl

theorem FastStochastic.calc_out (s : FastStochastic) (x : ℚ) :
    (s.calc' x).2 = if (s.minimum.calc' x).2 = (s.maximum.calc' x).2 then (50 : ℚ)
      else (x - (s.minimum.calc' x).2.toRat) /
        ((s.maximum.calc' x).2.toRat - (s.minimum.calc' x).2.toRat) * 100 := rfl

theorem FastStochastic.next_minimum (s : FastStochastic) (h l c : ℚ) :
    (s.next h l c).1.minimum = (s.minimum.calc' l).1 := rfl

theorem FastStochastic.next_maximum (s : FastStochastic) (h l c : ℚ) :
    (s.next h l c).1.maximum = (s.maximum.calc' h).1 := rfl

theorem FastStochastic.next_out (s : FastStochastic) (h l c : ℚ) :
    (s.next h l c).2 = if (s.maximum.calc' h).2 = (s.minimum.calc' l).2 then (50 : ℚ)
      else (c - (s.minimum.calc' l).2.toRat) /
        ((s.maximum.calc' h).2.toRat - (s.minimum.calc' l).2.toRat) * 100 := rfl

/-- `RateOfChange` from `src/indicators/rate_of_change.rs`: a bounded queue
of recent prices (`VecDeque<f64>` becomes a list, `push_back` an append and
`pop_front` a head removal). -/
structure RateOfChange where
  length : Nat
  prices : List ℚ

/-- The state built by `RateOfChange::new` for a positive length. -/
def RateOfChange.mkfresh (n : Nat) : RateOfChange := ⟨n, []⟩

/-- `RateOfChange::new`: matches on the length, rejecting `0`. -/
def RateOfChange.new (n : Nat) : Except ErrorKind RateOfChange :=
  match n with
  | 0 => .error .InvalidParameter
  | _ + 1 => .ok (RateOfChange.mkfresh n)

/-- `RateOfChange::calc`: push the input; on the very first input return
`0.0`; otherwise take the front of the queue as the baseline, popping it when
the queue has grown beyond `length`, and return the percentage change. -/
def RateOfChange.calc' (s : RateOfChange) (input : ℚ) : RateOfChange × ℚ :=
  let prices := s.prices ++ [input]
  if prices.length = 1 then (⟨s.length, prices⟩, 0)
  else if s.length < prices.length then
    (⟨s.length, prices.tail⟩, (input - prices.headD 0) / prices.headD 0 * 100)
  else
    (⟨s.length, prices⟩, (input - prices.headD 0) / prices.headD 0 * 100)

/-- `RateOfChange::reset`: clears the queue (`length` is untouched). -/
def RateOfChange.reset (s : RateOfChange) : RateOfChange := ⟨s.length, []⟩

/-- Drive a `RateOfChange` over a list of inputs. -/
def RateOfChange.run (s : RateOfChange) : List ℚ → RateOfChange × List ℚ
  | [] => (s, [])
  | x :: xs =>
    let p := s.calc' x
    let q := p.1.run xs
    (q.1, p.2 :: q.2)

@[simp] theorem RateOfChange.roc_run_nil (s : RateOfChange) : s.run [] = (s, []) := rfl

theorem RateOfChange.roc_run_cons (s : RateOfChange) (x : ℚ) (xs : List ℚ) :
    s.run (x :: xs) =
      (((s.calc' x).1.run xs).1, (s.calc' x).2 :: ((s.calc' x).1.run xs).2) := rfl

-- Sanity check: first two steps of the doc example of `fast_stochastic.rs`.
example : ((FastStochastic.mkfresh 5).calc' 20).2 = 50 := by decide

example : (((FastStochastic.mkfresh 5).calc' 20).1.calc' 30).2 = 100 := by
  rw [FastStochastic.calc_out,
    (by decide : ((((FastStochastic.mkfresh 5).calc' 20).1).minimum.calc' 30).2 = EF.fin 20),
    (by decide : ((((FastStochastic.mkfresh 5).calc' 20).1).maximum.calc' 30).2 = EF.fin 30),
    if_neg (by decide), EF.toRat_fin, EF.toRat_fin]
  norm_num

theorem osc_bounds {m M x : ℚ} (hm : m ≤ x) (hM : x ≤ M) (hlt : m < M) :
    0 ≤ (x - m) / (M - m) * 100 ∧ (x - m) / (M - m) * 100 ≤ 100 := by
  have hden : (0 : ℚ) < M - m := by linarith
  constructor
  · exact mul_nonneg (div_nonneg (by linarith) (le_of_lt hden)) (by norm_num)
  · have h1 : (x - m) / (M - m) ≤ 1 := (div_le_one hden).2 (by linarith)
    have h2 : (x - m) / (M - m) * 100 ≤ 1 * 100 :=
      mul_le_mul_of_nonneg_right h1 (by norm_num)
    linarith

theorem windowMin_le_last {n : Nat} (hn : 1 ≤ n) (as : List ℚ) (x : ℚ) :
    ∃ m : ℚ, windowMin n (as ++ [x]) = EF.fin m ∧ m ≤ x := by
  have hne : lastN n (as ++ [x]) ≠ [] :=
    List.ne_nil_of_mem (self_mem_lastN hn as x)
  obtain ⟨m, hm, _, hle⟩ := listMinEF_map_fin hne
  exact ⟨m, hm, hle x (self_mem_lastN hn as x)⟩

theorem windowMax_ge_last {n : Nat} (hn : 1 ≤ n) (bs : List ℚ) (x : ℚ) :
    ∃ M : ℚ, windowMax n (bs ++ [x]) = EF.fin M ∧ x ≤ M := by
  have hne : lastN n (bs ++ [x]) ≠ [] :=
    List.ne_nil_of_mem (self_mem_lastN hn bs x)
  obtain ⟨M, hM, _, hle⟩ := listMaxEF_map_fin hne
  exact ⟨M, hM, hle x (self_mem_lastN hn bs x)⟩

/-- Joint reachability of the two trackers inside a `FastStochastic`: the
minimum tracker has processed `as`, the maximum tracker `bs`. -/
def FSReach (n : Nat) (as bs : List ℚ) (s : FastStochastic) : Prop :=
  MinReach n as s.minimum ∧ MaxReach n bs s.maximum

theorem FSReach.mkfresh (n : Nat) (hn : 1 ≤ n) :
    FSReach n [] [] (FastStochastic.mkfresh n) :=
  ⟨minReach_init n hn, maxReach_init n hn⟩

theorem FSReach.calc_step {n : Nat} {as bs : List ℚ} {s : FastStochastic}
    (h : FSReach n as bs s) (hn : 1 ≤ n) (x : ℚ) :
    FSReach n (as ++ [x]) (bs ++ [x]) (s.calc' x).1 :=
  ⟨by rw [FastStochastic.calc_minimum]; exact (h.1.min_step hn x).1,
   by rw [FastStochastic.calc_maximum]; exact (h.2.max_step hn x).1⟩

theorem FSReach.next_step {n : Nat} {as bs : List ℚ} {s : FastStochastic}
    (h : FSReach n as bs s) (hn : 1 ≤ n) (hi lo cl : ℚ) :
    FSReach n (as ++ [lo]) (bs ++ [hi]) (s.next hi lo cl).1 :=
  ⟨by rw [FastStochastic.next_minimum]; exact (h.1.min_step hn lo).1,
   by rw [FastStochastic.next_maximum]; exact (h.2.max_step hn hi).1⟩

theorem FSReach.fs_reset {n : Nat} {as bs : List ℚ} {s : FastStochastic}
    (h : FSReach n as bs s) : FSReach n [] [] s.reset :=
  ⟨h.1.min_reset, h.2.max_reset⟩

theorem fsReach_applyUpds {n : Nat} (hn : 1 ≤ n) (us : List Upd) :
    ∀ (s : FastStochastic) (as bs : List ℚ), FSReach n as bs s →
      ∃ as' bs', FSReach n as' bs' (s.applyUpds us) := by
  induction us with
  | nil =>
    intro s as bs h
    exact ⟨as, bs, h⟩
  | cons u t ih =>
    intro s as bs h
    cases u with
    | scalar v => exact ih _ _ _ (h.calc_step hn v)
    | bar hi lo cl => exact ih _ _ _ (h.next_step hn hi lo cl)

/-- What one `calc` call returns, from any jointly reachable state: either the
degenerate `50`, or the normalized formula on the two (finite) window
extremes, which bracket the input. -/
theorem fs_calc_out_cases {n : Nat} {as bs : List ℚ} {s : FastStochastic}
    (h : FSReach n as bs s) (hn : 1 ≤ n) (x : ℚ) :
    ((s.minimum.calc' x).2 = (s.maximum.calc' x).2 ∧ (s.calc' x).2 = 50) ∨
    (∃ m M : ℚ, windowMin n (as ++ [x]) = EF.fin m ∧ windowMax n (bs ++ [x]) = EF.fin M ∧
      m ≤ x ∧ x ≤ M ∧ m ≠ M ∧
      (s.minimum.calc' x).2 = EF.fin m ∧ (s.maximum.calc' x).2 = EF.fin M ∧
      (s.calc' x).2 = (x - m) / (M - m) * 100) := by
  obtain ⟨m, hm, hmx⟩ := windowMin_le_last hn as x
  obtain ⟨M, hM, hxM⟩ := windowMax_ge_last hn bs x
  have h1 : (s.minimum.calc' x).2 = EF.fin m := by rw [(h.1.min_step hn x).2, hm]
  have h2 : (s.maximum.calc' x).2 = EF.fin M := by rw [(h.2.max_step hn x).2, hM]
  by_cases he : m = M
  · left
    refine ⟨by rw [h1, h2, he], ?_⟩
    rw [FastStochastic.calc_out, if_pos (by rw [h1, h2, he])]
  · right
    refine ⟨m, M, hm, hM, hmx, hxM, he, h1, h2, ?_⟩
    rw [FastStochastic.calc_out, if_neg (by rw [h1, h2]; exact fun hc => he (EF.fin_inj.1 hc)),
      h1, h2, EF.toRat_fin, EF.toRat_fin]

/-- The analogue of `fs_calc_out_cases` for the bar-input form `next`. -/
theorem fs_next_out_cases {n : Nat} {as bs : List ℚ} {s : FastStochastic}
    (h : FSReach n as bs s) (hn : 1 ≤ n) (hi lo cl : ℚ) :
    ((s.maximum.calc' hi).2 = (s.minimum.calc' lo).2 ∧ (s.next hi lo cl).2 = 50) ∨
    (∃ m M : ℚ, windowMin n (as ++ [lo]) = EF.fin m ∧ windowMax n (bs ++ [hi]) = EF.fin M ∧
      m ≤ lo ∧ hi ≤ M ∧ m ≠ M ∧
      (s.minimum.calc' lo).2 = EF.fin m ∧ (s.maximum.calc' hi).2 = EF.fin M ∧
      (s.next hi lo cl).2 = (cl - m) / (M - m) * 100) := by
  obtain ⟨m, hm, hmx⟩ := windowMin_le_last hn as lo
  obtain ⟨M, hM, hxM⟩ := windowMax_ge_last hn bs hi
  have h1 : (s.minimum.calc' lo).2 = EF.fin m := by rw [(h.1.min_step hn lo).2, hm]
  have h2 : (s.maximum.calc' hi).2 = EF.fin M := by rw [(h.2.max_step hn hi).2, hM]
  by_cases he : m = M
  · left
    refine ⟨by rw [h1, h2, he], ?_⟩
    rw [FastStochastic.next_out, if_pos (by rw [h1, h2, he])]
  · right
    refine ⟨m, M, hm, hM, hmx, hxM, he, h1, h2, ?_⟩
    rw [FastStochastic.next_out,
      if_neg (by rw [h1, h2]; exact fun hc => he (EF.fin_inj.1 hc).symm),
      h1, h2, EF.toRat_fin, EF.toRat_fin]

/-- Outputs of a single-channel run are determined by the processed input
lists of the two trackers (no other state component matters). -/
theorem fs_run_eq {n : Nat} (hn : 1 ≤ n) :
    ∀ (ys as bs : List ℚ) (s1 s2 : FastStochastic),
      FSReach n as bs s1 → FSReach n as bs s2 → (s1.run ys).2 = (s2.run ys).2 := by
  intro ys
  induction ys with
  | nil =>
    intro as bs s1 s2 _ _
    rfl
  | cons y t ih =>
    intro as bs s1 s2 h1 h2
    rw [FastStochastic.fs_run_cons, FastStochastic.fs_run_cons]
    have hout : (s1.calc' y).2 = (s2.calc' y).2 := by
      rw [FastStochastic.calc_out, FastStochastic.calc_out,
        (h1.1.min_step hn y).2, (h1.2.max_step hn y).2, (h2.1.min_step hn y).2, (h2.2.max_step hn y).2]
    rw [hout, ih (as ++ [y]) (bs ++ [y]) _ _ (h1.calc_step hn y) (h2.calc_step hn y)]

/-- Every output of a single-channel run from a state whose two trackers have
processed the same inputs lies in `[0, 100]`. -/
theorem fs_run_bounds {n : Nat} (hn : 1 ≤ n) :
    ∀ (ys pre : List ℚ) (s : FastStochastic), FSReach n pre pre s →
      ∀ o ∈ (s.run ys).2, 0 ≤ o ∧ o ≤ 100 := by
  intro ys
  induction ys with
  | nil =>
    intro pre s _ o ho
    simp at ho
  | cons y t ih =>
    intro pre s h o ho
    rw [FastStochastic.fs_run_cons] at ho
    rcases List.mem_cons.1 ho with rfl | ho
    · rcases fs_calc_out_cases h hn y with ⟨-, hout⟩ | ⟨m, M, -, -, hmx, hxM, hne, -, -, hout⟩
      · rw [hout]
        norm_num
      · rw [hout]
        exact osc_bounds hmx hxM (lt_of_le_of_ne (le_trans hmx hxM) hne)
    · exact ih (pre ++ [y]) _ (h.calc_step hn y) o ho

theorem listMinEF_replicate {k : Nat} (hk : 1 ≤ k) (e : EF) :
    listMinEF (List.replicate k e) = e :=
  listMinEF_eq_of (List.mem_replicate.2 ⟨by omega, rfl⟩)
    (fun x hx => le_of_eq (List.eq_of_mem_replicate hx).symm)

theorem listMaxEF_replicate {k : Nat} (hk : 1 ≤ k) (e : EF) :
    listMaxEF (List.replicate k e) = e :=
  listMaxEF_eq_of (List.mem_replicate.2 ⟨by omega, rfl⟩)
    (fun x hx => le_of_eq (List.eq_of_mem_replicate hx))

theorem lastN_replicate (n m : Nat) (c : ℚ) :
    lastN n (List.replicate m c) = List.replicate (min n m) c := by
  unfold lastN
  rw [List.drop_replicate]
  congr 1
  simp
  omega

theorem windowMin_const {n : Nat} (hn : 1 ≤ n) (j : Nat) (c : ℚ) :
    windowMin n (List.replicate j c ++ [c]) = EF.fin c := by
  rw [← List.replicate_succ']
  unfold windowMin
  rw [lastN_replicate, List.map_replicate, listMinEF_replicate (by omega)]

theorem windowMax_const {n : Nat} (hn : 1 ≤ n) (j : Nat) (c : ℚ) :
    windowMax n (List.replicate j c ++ [c]) = EF.fin c := by
  rw [← List.replicate_succ']
  unfold windowMax
  rw [lastN_replicate, List.map_replicate, listMaxEF_replicate (by omega)]

/-- C6: oscillator degeneracy.  Whenever the two tracked extremes coincide
after an update (in the single-channel or the bar form), the result is
exactly `50.0`; in particular, feeding any constant value repeatedly into a
fresh oscillator of any length `n ≥ 1` yields `50.0` on every step. -/
theorem c6_degenerate_fifty :
    (∀ (s : FastStochastic) (x : ℚ),
      (s.minimum.calc' x).2 = (s.maximum.calc' x).2 → (s.calc' x).2 = 50) ∧
    (∀ (s : FastStochastic) (hi lo cl : ℚ),
      (s.maximum.calc' hi).2 = (s.minimum.calc' lo).2 → (s.next hi lo cl).2 = 50) ∧
    (∀ (n : Nat), 1 ≤ n → ∀ (c : ℚ) (k : Nat),
      ((FastStochastic.mkfresh n).run (List.replicate k c)).2 =
        List.replicate k (50 : ℚ)) := by
  refine ⟨?_, ?_, ?_⟩
  · intro s x h
    rw [FastStochastic.calc_out, if_pos h]
  · intro s hi lo cl h
    rw [FastStochastic.next_out, if_pos h]
  · intro n hn c k
    have key : ∀ (k j : Nat) (s : FastStochastic),
        FSReach n (List.replicate j c) (List.replicate j c) s →
        (s.run (List.replicate k c)).2 = List.replicate k 50 := by
      intro k
      induction k with
      | zero => intro j s _; rfl
      | succ k ih =>
        intro j s h
        rw [List.replicate_succ, FastStochastic.fs_run_cons]
        have hcond : (s.minimum.calc' c).2 = (s.maximum.calc' c).2 := by
          rw [(h.1.min_step hn c).2, (h.2.max_step hn c).2, windowMin_const hn j c,
            windowMax_const hn j c]
        have hout : (s.calc' c).2 = 50 := by
          rw [FastStochastic.calc_out, if_pos hcond]
        have hreach : FSReach n (List.replicate (j + 1) c) (List.replicate (j + 1) c)
            (s.calc' c).1 := by
          have hr := h.calc_step hn c
          rwa [← List.replicate_succ'] at hr
        rw [hout, ih (j + 1) _ hreach, List.replicate_succ]
    exact key k 0 _ (FSReach.mkfresh n hn)

/-- Witness for C6: length 1, constant input `7`, two steps. -/
theorem c6_witness :
    ((FastStochastic.mkfresh 1).run (List.replicate 2 (7 : ℚ))).2 =
      List.replicate 2 (50 : ℚ) :=
  c6_degenerate_fifty.2.2 1 (le_refl 1) 7 2

/-- C5 counterexample: the multi-channel `next` can leave `[0, 100]` even
when the tracked maximum exceeds the tracked minimum, because the close of a
bar need not lie between its low and high.  A fresh length-2 oscillator fed
the bar (high 10, low 0, close 20) has max 10 > min 0 but returns 200. -/
theorem c5_counterexample :
    ((FastStochastic.mkfresh 2).minimum.calc' 0).2 <
      ((FastStochastic.mkfresh 2).maximum.calc' 10).2 ∧
    ¬ (((FastStochastic.mkfresh 2).next 10 0 20).2 ≤ 100) := by
  constructor
  · decide
  · rw [FastStochastic.next_out,
      (by decide : ((FastStochastic.mkfresh 2).maximum.calc' 10).2 = EF.fin 10),
      (by decide : ((FastStochastic.mkfresh 2).minimum.calc' 0).2 = EF.fin 0),
      if_neg (by decide), EF.toRat_fin, EF.toRat_fin]
    norm_num

/-- C5 (amended): oscillator bounds.  For every reachable oscillator state,
whenever the tracked maximum of the update is strictly greater than its
tracked minimum, the single-channel `calc` always returns a value in
`[0, 100]`; the multi-channel `next` does so provided the bar is well-formed,
i.e. `low ≤ close ≤ high` (an arbitrary close can leave the range, see the
counterexample). -/
theorem c5_amended_bounds (n : Nat) (hn : 1 ≤ n) (us : List Upd) (s : FastStochastic)
    (hs : s = (FastStochastic.mkfresh n).applyUpds us) :
    (∀ x : ℚ, (s.minimum.calc' x).2 < (s.maximum.calc' x).2 →
      0 ≤ (s.calc' x).2 ∧ (s.calc' x).2 ≤ 100) ∧
    (∀ hi lo cl : ℚ, lo ≤ cl → cl ≤ hi →
      (s.minimum.calc' lo).2 < (s.maximum.calc' hi).2 →
      0 ≤ (s.next hi lo cl).2 ∧ (s.next hi lo cl).2 ≤ 100) := by
  obtain ⟨as, bs, hreach⟩ :=
    fsReach_applyUpds hn us (FastStochastic.mkfresh n) [] [] (FSReach.mkfresh n hn)
  rw [← hs] at hreach
  constructor
  · intro x hlt
    rcases fs_calc_out_cases hreach hn x with ⟨heq, -⟩ |
      ⟨m, M, -, -, hmx, hxM, -, h1, h2, hout⟩
    · rw [heq] at hlt
      exact absurd hlt (lt_irrefl _)
    · rw [h1, h2] at hlt
      rw [hout]
      exact osc_bounds hmx hxM (EF.fin_lt_fin.1 hlt)
  · intro hi lo cl hlc hch hlt
    rcases fs_next_out_cases hreach hn hi lo cl with ⟨heq, -⟩ |
      ⟨m, M, -, -, hml, hhM, -, h1, h2, hout⟩
    · rw [heq] at hlt
      exact absurd hlt (lt_irrefl _)
    · rw [h1, h2] at hlt
      rw [hout]
      exact osc_bounds (le_trans hml hlc) (le_trans hch hhM) (EF.fin_lt_fin.1 hlt)

/-- Witness for C5 at `n = 2`, history `[0]`, input `10`. -/
theorem c5_witness :
    0 ≤ (((FastStochastic.mkfresh 2).applyUpds [Upd.scalar 0]).calc' 10).2 ∧
    (((FastStochastic.mkfresh 2).applyUpds [Upd.scalar 0]).calc' 10).2 ≤ 100 :=
  (c5_amended_bounds 2 (by decide) [Upd.scalar 0] _ rfl).1 10 (by decide)

/-- Full IEEE-754 doubles (without NaN payloads/signed zeros): NaN, the two
infinities, and finite values as exact rationals.  The non-NaN float domain
of the claims includes the infinities, which the `EF`-based embedding above
does not accept as inputs; this type is used to evaluate the oscillator at
an infinite input. -/
inductive F where
  | nan : F
  | ninf : F
  | fin : ℚ → F
  | inf : F
deriving DecidableEq

/-- IEEE `<` on doubles: false whenever an operand is NaN, the usual order
otherwise. -/
def F.blt : F → F → Bool
  | .nan, _ => false
  | _, .nan => false
  | .ninf, .ninf => false
  | .ninf, _ => true
  | _, .ninf => false
  | .fin a, .fin b => decide (a < b)
  | .fin _, .inf => true
  | .inf, _ => false

/-- IEEE `<=` on doubles: false whenever an operand is NaN. -/
def F.ble : F → F → Bool
  | .nan, _ => false
  | _, .nan => false
  | .ninf, _ => true
  | _, .ninf => false
  | .fin a, .fin b => decide (a ≤ b)
  | _, .inf => true
  | .inf, _ => false

/-- IEEE `==` on doubles: false whenever an operand is NaN (also `NaN == NaN`). -/
def F.beq : F → F → Bool
  | .nan, _ => false
  | _, .nan => false
  | .ninf, .ninf => true
  | .inf, .inf => true
  | .fin a, .fin b => decide (a = b)
  | _, _ => false

/-- IEEE subtraction: `∞ - ∞ = NaN`, infinities absorb finite operands, NaN
propagates.  (ℚ has a single zero, which only matters for results that are
themselves zero.) -/
def F.sub : F → F → F
  | .nan, _ => .nan
  | _, .nan => .nan
  | .inf, .inf => .nan
  | .ninf, .ninf => .nan
  | .inf, _ => .inf
  | .ninf, _ => .ninf
  | .fin _, .inf => .ninf
  | .fin _, .ninf => .inf
  | .fin a, .fin b => .fin (a - b)

/-- IEEE division: `∞/∞ = NaN`, `0/0 = NaN`, finite-by-infinite is zero,
nonzero-by-zero is a (sign-determined) infinity, NaN propagates.  (Without a
signed zero, `x/0` takes the positive-zero sign rule.) -/
def F.div : F → F → F
  | .nan, _ => .nan
  | _, .nan => .nan
  | .inf, .inf => .nan
  | .inf, .ninf => .nan
  | .ninf, .inf => .nan
  | .ninf, .ninf => .nan
  | .inf, .fin b => if b < 0 then .ninf else .inf
  | .ninf, .fin b => if b < 0 then .inf else .ninf
  | .fin _, .inf => .fin 0
  | .fin _, .ninf => .fin 0
  | .fin a, .fin b =>
    if b = 0 then (if a = 0 then .nan else if a < 0 then .ninf else .inf)
    else .fin (a / b)

/-- IEEE multiplication: `±∞ * 0 = NaN`, infinities follow the sign rule,
NaN propagates. -/
def F.mul : F → F → F
  | .nan, _ => .nan
  | _, .nan => .nan
  | .inf, .inf => .inf
  | .inf, .ninf => .ninf
  | .ninf, .inf => .ninf
  | .ninf, .ninf => .inf
  | .inf, .fin b => if b = 0 then .nan else if b < 0 then .ninf else .inf
  | .fin a, .inf => if a = 0 then .nan else if a < 0 then .ninf else .inf
  | .ninf, .fin b => if b = 0 then .nan else if b < 0 then .inf else .ninf
  | .fin a, .ninf => if a = 0 then .nan else if a < 0 then .inf else .ninf
  | .fin a, .fin b => .fin (a * b)

/-- `Minimum` over full IEEE doubles: the same translation of
`src/indicators/minimum.rs` as `Minimum` above (advance cursor, overwrite
slot, strict-`<` cache update with post-write read, rescan when the holder
was overwritten), with the IEEE comparison in place of the `EF` order so
that infinite inputs can be fed. -/
structure MinimumF where
  n : Nat
  vec : List F
  min_index : Nat
  cur_index : Nat

def MinimumF.mkfreshF (n : Nat) : MinimumF :=
  { n := n, vec := List.replicate n .inf, min_index := 0, cur_index := 0 }

def findMinAuxF : List F → Nat → F → Nat → F × Nat
  | [], _, m, idx => (m, idx)
  | v :: rest, i, m, idx =>
    if F.blt v m then findMinAuxF rest (i + 1) v i else findMinAuxF rest (i + 1) m idx

def MinimumF.find_min_indexF (vec : List F) : Nat := (findMinAuxF vec 0 .inf 0).2

def MinimumF.calcF (s : MinimumF) (input : F) : MinimumF × F :=
  let cur := (s.cur_index + 1) % s.n
  let v := s.vec.set cur input
  let mi :=
    if F.blt input (v.getD s.min_index .inf) then cur
    else if s.min_index = cur then MinimumF.find_min_indexF v
    else s.min_index
  (⟨s.n, v, mi, cur⟩, v.getD mi .inf)

def MinimumF.runF (s : MinimumF) : List F → MinimumF × List F
  | [] => (s, [])
  | x :: xs =>
    let p := s.calcF x
    let q := p.1.runF xs
    (q.1, p.2 :: q.2)

-- Sanity check: on finite inputs the IEEE model agrees with the `EF` model
-- and with the `test_next` unit test of `minimum.rs` (scaled by 10).
example :
    ((MinimumF.mkfreshF 3).runF
        ([40, 12, 50, 30, 40, 60, 70, 80, -90, 0].map F.fin)).2 =
      ([40, 12, 12, 12, 30, 30, 40, 60, -90, -90] : List ℚ).map F.fin := by decide

/-- Modelled from the spec: `Maximum` over full IEEE doubles, mirroring
`MinimumF` with the comparison inverted and the `NEG_INFINITY` sentinel
(the same modelling as `Maximum` above). -/
structure MaximumF where
  n : Nat
  vec : List F
  max_index : Nat
  cur_index : Nat

def MaximumF.mkfreshF (n : Nat) : MaximumF :=
  { n := n, vec := List.replicate n .ninf, max_index := 0, cur_index := 0 }

def findMaxAuxF : List F → Nat → F → Nat → F × Nat
  | [], _, m, idx => (m, idx)
  | v :: rest, i, m, idx =>
    if F.blt m v then findMaxAuxF rest (i + 1) v i else findMaxAuxF rest (i + 1) m idx

def MaximumF.find_max_indexF (vec : List F) : Nat := (findMaxAuxF vec 0 .ninf 0).2

def MaximumF.calcF (s : MaximumF) (input : F) : MaximumF × F :=
  let cur := (s.cur_index + 1) % s.n
  let v := s.vec.set cur input
  let mi :=
    if F.blt (v.getD s.max_index .ninf) input then cur
    else if s.max_index = cur then MaximumF.find_max_indexF v
    else s.max_index
  (⟨s.n, v, mi, cur⟩, v.getD mi .ninf)

/-- `FastStochastic` over full IEEE doubles: the same translation of
`FastStochastic::calc` as `FastStochastic.calc'` above, with IEEE equality
for the `min == max` test and IEEE arithmetic for
`(input - min) / (max - min) * 100.0`. -/
structure FastStochasticF where
  length : Nat
  minimum : MinimumF
  maximum : MaximumF

def FastStochasticF.mkfreshF (n : Nat) : FastStochasticF :=
  ⟨n, MinimumF.mkfreshF n, MaximumF.mkfreshF n⟩

def FastStochasticF.calcF (s : FastStochasticF) (input : F) : FastStochasticF × F :=
  let pmin := s.minimum.calcF input
  let pmax := s.maximum.calcF input
  let out := if F.beq pmin.2 pmax.2 then F.fin 50
             else F.mul (F.div (F.sub input pmin.2) (F.sub pmax.2 pmin.2)) (F.fin 100)
  (⟨s.length, pmin.1, pmax.1⟩, out)

-- Sanity check: the degenerate first step of the doc example, in the IEEE
-- model.
example : ((FastStochasticF.mkfreshF 5).calcF (F.fin 5)).2 = F.fin 50 := by decide

/-- C9 counterexample: the claim quantifies over non-NaN float inputs, which
include the infinities — and there the bounds fail.  Feeding `5.0` and then
`+∞` into a fresh length-2 oscillator: the minimum tracker returns `5`, the
maximum tracker returns `+∞`, the extremes differ, and the formula computes
`(∞ - 5) / (∞ - 5) * 100 = ∞/∞ * 100 = NaN`, which does not lie in
`[0, 100]` (both IEEE comparisons with NaN are false). -/
theorem c9_counterexample :
    (((FastStochasticF.mkfreshF 2).calcF (F.fin 5)).1.calcF F.inf).2 = F.nan ∧
    ¬ (F.ble (F.fin 0) ((((FastStochasticF.mkfreshF 2).calcF (F.fin 5)).1.calcF F.inf).2) = true ∧
       F.ble ((((FastStochasticF.mkfreshF 2).calcF (F.fin 5)).1.calcF F.inf).2) (F.fin 100) = true) := by
  decide

/-- C9 (amended): bounds of the single-channel oscillator over finite
inputs.  Every value returned by `calc` over any finite sequence of finite
(non-NaN, non-infinite) inputs lies in `[0, 100]`, the degenerate case
returning `50.0`.  (The restriction to finite inputs is forced: at an
infinite input the formula produces `∞/∞ = NaN`, see the counterexample
above.) -/
theorem c9_calc_bounds (n : Nat) (hn : 1 ≤ n) (xs : List ℚ) (o : ℚ)
    (ho : o ∈ ((FastStochastic.mkfresh n).run xs).2) :
    0 ≤ o ∧ o ≤ 100 :=
  fs_run_bounds hn xs [] _ (FSReach.mkfresh n hn) o ho

/-- Witness for C9 at `n = 1`, inputs `[3]`. -/
theorem c9_witness : 0 ≤ (50 : ℚ) ∧ (50 : ℚ) ≤ 100 :=
  c9_calc_bounds 1 (by decide) [3] 50 (by decide)

/-- C10 (implicit): scalar/bar update equivalence.  For EVERY oscillator
state (reachable or not) and every finite value `v`, `calc v` and
`next v v v` return the same value and leave the same state: the two forms
update the trackers in opposite order, which cannot matter since the two
trackers are independent. -/
theorem c10_calc_next_equiv (s : FastStochastic) (v : ℚ) : s.calc' v = s.next v v v := by
  have hout : (s.calc' v).2 = (s.next v v v).2 := by
    rw [FastStochastic.calc_out, FastStochastic.next_out]
    by_cases h : (s.minimum.calc' v).2 = (s.maximum.calc' v).2
    · rw [if_pos h, if_pos h.symm]
    · rw [if_neg h, if_neg (fun he => h he.symm)]
  have hst : (s.calc' v).1 = (s.next v v v).1 := rfl
  exact Prod.ext hst hout

theorem headD_append_of_ne_nil {α : Type} {l : List α} (h : l ≠ []) (t : List α) (d : α) :
    (l ++ t).headD d = l.headD d := by
  cases l with
  | nil => exact absurd rfl h
  | cons a s => rfl

theorem tail_append_of_ne_nil {α : Type} {l : List α} (h : l ≠ []) (t : List α) :
    (l ++ t).tail = l.tail ++ t := by
  cases l with
  | nil => exact absurd rfl h
  | cons a s => rfl

theorem headD_drop {α : Type} (l : List α) : ∀ (m : Nat) (d : α),
    (l.drop m).headD d = l.getD m d := by
  induction l with
  | nil => intro m d; cases m <;> rfl
  | cons a t ih =>
    intro m d
    cases m with
    | zero => rfl
    | succ j => exact ih j d

theorem getD_take {α : Type} (xs : List α) (k i : Nat) (d : α) (h : i < k) :
    (xs.take k).getD i d = xs.getD i d := by
  by_cases hi : i < xs.length
  · rw [List.getD_eq_getElem _ _ (by simp; omega), List.getD_eq_getElem _ _ hi]
    simp [List.getElem_take]
  · rw [List.getD_eq_default _ _ (by simp; omega),
      List.getD_eq_default _ _ (by omega)]

/-- The reachability invariant of `RateOfChange`: the queue holds precisely
the last `min(inputs so far, length)` inputs. -/
def RocReach (L : Nat) (xs : List ℚ) (s : RateOfChange) : Prop :=
  s.length = L ∧ s.prices = lastN (min xs.length L) xs

theorem rocReach_init (L : Nat) : RocReach L [] (RateOfChange.mkfresh L) :=
  ⟨rfl, by simp [RateOfChange.mkfresh]⟩

theorem RocReach.roc_step {L : Nat} {xs : List ℚ} {s : RateOfChange} (hL : 1 ≤ L)
    (h : RocReach L xs s) (x : ℚ) :
    RocReach L (xs ++ [x]) (s.calc' x).1 ∧
      (s.calc' x).2 = (if xs.length = 0 then 0 else
        (x - (lastN (min xs.length L) xs).headD 0) /
          ((lastN (min xs.length L) xs).headD 0) * 100) := by
  obtain ⟨hlen, hpr⟩ := h
  by_cases hk : xs.length = 0
  · have hxs : xs = [] := List.eq_nil_of_length_eq_zero hk
    subst hxs
    have hp : s.prices = [] := by simpa using hpr
    have hc : s.calc' x = (⟨s.length, [x]⟩, 0) := by
      simp [RateOfChange.calc', hp]
    refine ⟨⟨by rw [hc]; exact hlen, ?_⟩, by rw [hc]; simp⟩
    rw [hc]
    show [x] = lastN (min ([] ++ [x] : List ℚ).length L) ([] ++ [x])
    have hm : min ([] ++ [x] : List ℚ).length L = 1 := by simp; omega
    rw [hm]
    rw [lastN_of_le (by simp)]
    rfl
  · have hk1 : 1 ≤ xs.length := by omega
    have hmink : 1 ≤ min xs.length L := by omega
    have hpne : s.prices ≠ [] := by
      rw [hpr]
      apply List.ne_nil_of_length_pos
      rw [lastN_length]
      omega
    have hplen : s.prices.length = min xs.length L := by
      rw [hpr, lastN_length]
      omega
    have hlen1 : ¬ ((s.prices ++ [x]).length = 1) := by
      rw [List.length_append]
      simp only [List.length_singleton]
      omega
    have hhead : (s.prices ++ [x]).headD 0 = (lastN (min xs.length L) xs).headD 0 := by
      rw [headD_append_of_ne_nil hpne, hpr]
    rw [if_neg hk]
    by_cases hLk : L ≤ xs.length
    · have hminL : min xs.length L = L := by omega
      have hpop : s.length < (s.prices ++ [x]).length := by
        rw [List.length_append, hplen, hlen]
        simp only [List.length_singleton]
        omega
      have hc : s.calc' x = (⟨s.length, (s.prices ++ [x]).tail⟩,
          (x - (s.prices ++ [x]).headD 0) / (s.prices ++ [x]).headD 0 * 100) := by
        rw [RateOfChange.calc']
        rw [if_neg hlen1, if_pos hpop]
      refine ⟨⟨by rw [hc]; exact hlen, ?_⟩, by rw [hc, hhead]⟩
      rw [hc]
      show (s.prices ++ [x]).tail = lastN (min (xs ++ [x]).length L) (xs ++ [x])
      have hm : min (xs ++ [x]).length L = L := by
        simp only [List.length_append, List.length_singleton]
        omega
      rw [hm, tail_append_of_ne_nil hpne, hpr, hminL,
        lastN_append_singleton_of_ge hL hLk]
    · have hminL : min xs.length L = xs.length := by omega
      have hnopop : ¬ (s.length < (s.prices ++ [x]).length) := by
        rw [List.length_append, hplen, hlen]
        simp only [List.length_singleton]
        omega
      have hc : s.calc' x = (⟨s.length, s.prices ++ [x]⟩,
          (x - (s.prices ++ [x]).headD 0) / (s.prices ++ [x]).headD 0 * 100) := by
        rw [RateOfChange.calc']
        rw [if_neg hlen1, if_neg hnopop]
      refine ⟨⟨by rw [hc]; exact hlen, ?_⟩, by rw [hc, hhead]⟩
      rw [hc]
      show s.prices ++ [x] = lastN (min (xs ++ [x]).length L) (xs ++ [x])
      have hm : min (xs ++ [x]).length L = (xs ++ [x]).length := by
        simp only [List.length_append, List.length_singleton]
        omega
      rw [hm, lastN_of_le (le_refl _), hpr, hminL, lastN_of_le (le_refl _)]

theorem roc_run_reach {L : Nat} (hL : 1 ≤ L) :
    ∀ (ys pre : List ℚ) (s : RateOfChange), RocReach L pre s →
      RocReach L (pre ++ ys) (s.run ys).1 := by
  intro ys
  induction ys with
  | nil =>
    intro pre s h
    simpa using h
  | cons y t ih =>
    intro pre s h
    rw [RateOfChange.roc_run_cons]
    have happ : pre ++ y :: t = (pre ++ [y]) ++ t := by simp
    rw [happ]
    exact ih (pre ++ [y]) _ (RocReach.roc_step hL h y).1

theorem roc_run_getD {L : Nat} (hL : 1 ≤ L) :
    ∀ (ys pre : List ℚ) (s : RateOfChange), RocReach L pre s → ∀ k, k < ys.length →
      ((s.run ys).2).getD k 0 =
        (if (pre ++ ys.take k).length = 0 then 0 else
          (ys.getD k 0 -
            (lastN (min (pre ++ ys.take k).length L) (pre ++ ys.take k)).headD 0) /
            ((lastN (min (pre ++ ys.take k).length L) (pre ++ ys.take k)).headD 0) * 100) := by
  intro ys
  induction ys with
  | nil =>
    intro pre s h k hk
    simp at hk
  | cons y t ih =>
    intro pre s h k hk
    have hstep := RocReach.roc_step hL h y
    cases k with
    | zero =>
      rw [RateOfChange.roc_run_cons, List.getD_cons_zero, hstep.2]
      simp
    | succ j =>
      rw [RateOfChange.roc_run_cons, List.getD_cons_succ,
        ih (pre ++ [y]) _ hstep.1 j (by simpa using hk)]
      rw [show pre ++ (y :: t).take (j + 1) = (pre ++ [y]) ++ t.take j by
        simp [List.take_succ_cons]]
      rw [List.getD_cons_succ]

/-- The baseline of the rate-of-change formula at (0-based) call index `k`:
the input exactly `length` steps earlier once more than `length` values have
been seen, and otherwise the first input ever seen. -/
def rocBaseline (L : Nat) (xs : List ℚ) (k : Nat) : ℚ :=
  if L ≤ k then xs.getD (k - L) 0 else xs.getD 0 0

/-- C7: rate-of-change update semantics.  From a fresh indicator of length
`L ≥ 1`: the first call returns `0.0`; the call at 0-based index `k ≥ 1`
with input `xs[k]` returns `(xs[k] - b) / b * 100` where `b` is the claimed
baseline; and the internal queue never exceeds `L + 1` entries (it in fact
stays at `min(inputs, L)` after every call). -/
theorem c7_rate_of_change_semantics (L : Nat) (hL : 1 ≤ L) (xs : List ℚ) :
    (0 < xs.length → (((RateOfChange.mkfresh L).run xs).2).getD 0 0 = 0) ∧
    (∀ k, 1 ≤ k → k < xs.length →
      (((RateOfChange.mkfresh L).run xs).2).getD k 0 =
        (xs.getD k 0 - rocBaseline L xs k) / rocBaseline L xs k * 100) ∧
    (∀ k : Nat, (((RateOfChange.mkfresh L).run (xs.take k)).1).prices.length ≤ L + 1) := by
  refine ⟨?_, ?_, ?_⟩
  · intro h0
    rw [roc_run_getD hL xs [] _ (rocReach_init L) 0 h0]
    simp
  · intro k hk1 hklt
    rw [roc_run_getD hL xs [] _ (rocReach_init L) k hklt]
    simp only [List.nil_append]
    have hlen : (xs.take k).length = k := by
      simp
      omega
    rw [if_neg (by rw [hlen]; omega)]
    have hbase : (lastN (min (xs.take k).length L) (xs.take k)).headD 0 =
        rocBaseline L xs k := by
      unfold rocBaseline lastN
      rw [hlen]
      by_cases hLk : L ≤ k
      · rw [if_pos hLk, show min k L = L from by omega, headD_drop]
        exact getD_take xs k (k - L) 0 (by omega)
      · rw [if_neg hLk, show min k L = k from by omega, Nat.sub_self, List.drop_zero,
          show (xs.take k).headD 0 = (xs.take k).getD 0 0 from by
            cases h0 : xs.take k <;> rfl]
        exact getD_take xs k 0 0 (by omega)
    rw [hbase]
  · intro k
    obtain ⟨-, hpr⟩ := roc_run_reach hL (xs.take k) [] _ (rocReach_init L)
    rw [List.nil_append] at hpr
    rw [hpr, lastN_length]
    omega

/-- Witness for C7 at `L = 3`, inputs `[10, 11]`, second output. -/
theorem c7_witness :
    (((RateOfChange.mkfresh 3).run [10, 11]).2).getD 1 0 =
      (([10, 11] : List ℚ).getD 1 0 - rocBaseline 3 [10, 11] 1) /
        rocBaseline 3 [10, 11] 1 * 100 :=
  (c7_rate_of_change_semantics 3 (by decide) [10, 11]).2.1 1 (by decide) (by decide)

/-- C4: reset-replay determinism.  For each of the three indicators, after
any reachable prior history, `reset()` followed by a replay of any input
sequence produces exactly the same outputs as a freshly constructed instance
of the same length.  (For the oscillator the prior history may mix scalar and
bar updates.) -/
theorem c4_reset_replay (n : Nat) (hn : 1 ≤ n) :
    (∀ hist ys : List ℚ,
      ((((Minimum.mkfresh n).run hist).1.reset).run ys).2 =
        ((Minimum.mkfresh n).run ys).2) ∧
    (∀ (us : List Upd) (ys : List ℚ),
      ((((FastStochastic.mkfresh n).applyUpds us).reset).run ys).2 =
        ((FastStochastic.mkfresh n).run ys).2) ∧
    (∀ hist ys : List ℚ,
      ((((RateOfChange.mkfresh n).run hist).1.reset).run ys).2 =
        ((RateOfChange.mkfresh n).run ys).2) := by
  refine ⟨?_, ?_, ?_⟩
  · intro hist ys
    have h1 : MinReach n [] (((Minimum.mkfresh n).run hist).1.reset) :=
      (minReach_run hn hist).min_reset
    rw [(Minimum.min_run_spec hn ys [] _ h1).1,
      (Minimum.min_run_spec hn ys [] _ (minReach_init n hn)).1]
  · intro us ys
    obtain ⟨as, bs, hr⟩ := fsReach_applyUpds hn us _ [] [] (FSReach.mkfresh n hn)
    exact fs_run_eq hn ys [] [] _ _ hr.fs_reset (FSReach.mkfresh n hn)
  · intro hist ys
    have hlen : (((RateOfChange.mkfresh n).run hist).1).length = n :=
      (roc_run_reach hn hist [] _ (rocReach_init n)).1
    have hres : (((RateOfChange.mkfresh n).run hist).1).reset = RateOfChange.mkfresh n := by
      show (⟨(((RateOfChange.mkfresh n).run hist).1).length, []⟩ : RateOfChange) =
        RateOfChange.mkfresh n
      rw [hlen]
      rfl
    rw [hres]

/-- Witness for C4 at `n = 2`, history `[1, 2]` (and `[scalar 1]` for the
oscillator), replay `[3]`. -/
theorem c4_witness :
    ((((Minimum.mkfresh 2).run [1, 2]).1.reset).run [3]).2 =
      ((Minimum.mkfresh 2).run [3]).2 ∧
    ((((FastStochastic.mkfresh 2).applyUpds [Upd.scalar 1]).reset).run [3]).2 =
      ((FastStochastic.mkfresh 2).run [3]).2 ∧
    ((((RateOfChange.mkfresh 2).run [1, 2]).1.reset).run [3]).2 =
      ((RateOfChange.mkfresh 2).run [3]).2 :=
  ⟨(c4_reset_replay 2 (by decide)).1 [1, 2] [3],
   (c4_reset_replay 2 (by decide)).2.1 [Upd.scalar 1] [3],
   (c4_reset_replay 2 (by decide)).2.2 [1, 2] [3]⟩

/-- C8: construction error handling.  For each of the three indicators,
`new(0)` returns the `InvalidParameter` error and `new(n)` succeeds for every
`n ≥ 1` (yielding the fresh state). -/
theorem c8_construction_errors :
    (Minimum.new 0 = .error .InvalidParameter) ∧
    (∀ n, 1 ≤ n → Minimum.new n = .ok (Minimum.mkfresh n)) ∧
    (FastStochastic.new 0 = .error .InvalidParameter) ∧
    (∀ n, 1 ≤ n → FastStochastic.new n = .ok (FastStochastic.mkfresh n)) ∧
    (RateOfChange.new 0 = .error .InvalidParameter) ∧
    (∀ n, 1 ≤ n → RateOfChange.new n = .ok (RateOfChange.mkfresh n)) := by
  refine ⟨rfl, ?_, rfl, ?_, rfl, ?_⟩
  · intro n hn
    unfold Minimum.new
    rw [if_neg (by omega)]
  · intro n hn
    have h1 : Minimum.new n = .ok (Minimum.mkfresh n) := by
      unfold Minimum.new
      rw [if_neg (by omega)]
    have h2 : Maximum.new n = .ok (Maximum.mkfresh n) := by
      unfold Maximum.new
      rw [if_neg (by omega)]
    unfold FastStochastic.new
    rw [h1, h2]
    rfl
  · intro n hn
    cases n with
    | zero => exact absurd hn (by omega)
    | succ k => rfl

/-- Witness for C8 at `n = 1`. -/
theorem c8_witness :
    Minimum.new 1 = .ok (Minimum.mkfresh 1) ∧
    FastStochastic.new 1 = .ok (FastStochastic.mkfresh 1) ∧
    RateOfChange.new 1 = .ok (RateOfChange.mkfresh 1) :=
  ⟨c8_construction_errors.2.1 1 (le_refl 1),
   c8_construction_errors.2.2.2.1 1 (le_refl 1),
   c8_construction_errors.2.2.2.2.2 1 (le_refl 1)⟩

end TaRs
